import Mathlib

/-!
Verification of the ts-literate core: the layer extractor (`extract.ts`),
the token renderer (`html/tokens.ts`), the code-block renderer's
definition registry (`html/render.ts`) and the link/index computation
(`html/index.ts`).

Strings are modelled as `List Char` (one `Char` per JS string code unit;
all inputs of interest are ASCII).  JS `Map` objects are modelled as
association lists with `Map.set` / `Map.get` semantics.
-/

namespace TsLiterate

/-! ## Character helpers -/

/-- JS whitespace as used by `String.prototype.trimStart` / `trim`:
space, tab, line terminators, vertical tab, form feed, NBSP, BOM. -/
def isJsWs (c : Char) : Bool :=
  c = ' ' || c = '\t' || c = '\n' || c = '\r' ||
  c = '\x0b' || c = '\x0c' || c = ' ' || c = '﻿'

/-- Does the (already trimmed) line start with the prose marker `///`?
(`trimmed.startsWith("///")` in `extract.ts`.) -/
def startsWithSlashes : List Char → Bool
  | '/' :: '/' :: '/' :: _ => true
  | _ => false

/-- Models `s.trim() === ""`: every character is whitespace. -/
def isBlank (s : List Char) : Bool := s.all isJsWs

/-! ## Splitting and joining on a separator character
(models `source.split("\n")` and `result.join("\n")`). -/

def splitOnChar (sep : Char) : List Char → List (List Char)
  | [] => [[]]
  | c :: rest =>
    if c = sep then [] :: splitOnChar sep rest
    else
      match splitOnChar sep rest with
      | l :: ls => (c :: l) :: ls
      | [] => [[c]]

/-- Models `parts.join(sep)` for a single-character separator. -/
def joinWith (sep : Char) : List (List Char) → List Char
  | [] => []
  | [l] => l
  | l :: l2 :: rest => l ++ sep :: joinWith sep (l2 :: rest)

def splitLines (s : List Char) : List (List Char) := splitOnChar '\n' s

def joinLines (ls : List (List Char)) : List Char := joinWith '\n' ls

theorem splitOnChar_ne_nil (sep : Char) (s : List Char) : splitOnChar sep s ≠ [] := by
  induction s with
  | nil => simp [splitOnChar]
  | cons c rest ih =>
    simp only [splitOnChar]
    split
    · simp
    · cases h : splitOnChar sep rest with
      | nil => simp
      | cons l ls => simp

theorem mem_splitOnChar_not_sep (sep : Char) (s : List Char) :
    ∀ l ∈ splitOnChar sep s, sep ∉ l := by
  induction s with
  | nil => intro l hl; simp [splitOnChar] at hl; simp [hl]
  | cons c rest ih =>
    intro l hl
    simp only [splitOnChar] at hl
    split at hl
    · rcases List.mem_cons.mp hl with h | h
      · simp [h]
      · exact ih l h
    · rename_i hc
      cases h : splitOnChar sep rest with
      | nil => exact absurd h (splitOnChar_ne_nil sep rest)
      | cons l0 ls =>
        rw [h] at hl
        rcases List.mem_cons.mp hl with h1 | h1
        · subst h1
          intro hmem
          rcases List.mem_cons.mp hmem with h2 | h2
          · exact hc h2.symm
          · exact ih l0 (by simp [h]) h2
        · exact ih l (by simp [h, h1])

theorem joinWith_cons_cons (sep : Char) (l l2 : List Char) (rest : List (List Char)) :
    joinWith sep (l :: l2 :: rest) = l ++ sep :: joinWith sep (l2 :: rest) := rfl

theorem joinWith_splitOnChar (sep : Char) (s : List Char) :
    joinWith sep (splitOnChar sep s) = s := by
  induction s with
  | nil => simp [splitOnChar, joinWith]
  | cons c rest ih =>
    simp only [splitOnChar]
    split
    · rename_i hc
      cases h : splitOnChar sep rest with
      | nil => exact absurd h (splitOnChar_ne_nil sep rest)
      | cons l ls =>
        rw [h] at ih
        rw [joinWith_cons_cons, ih, hc]
        simp
    · cases h : splitOnChar sep rest with
      | nil => exact absurd h (splitOnChar_ne_nil sep rest)
      | cons l ls =>
        rw [h] at ih
        cases ls with
        | nil => simpa [joinWith] using congrArg (c :: ·) ih
        | cons l2 ls2 =>
          rw [joinWith_cons_cons]
          rw [joinWith_cons_cons] at ih
          simpa using congrArg (c :: ·) ih

theorem splitOnChar_append_not_sep (sep : Char) (l : List Char) (hl : sep ∉ l) (t : List Char) :
    splitOnChar sep (l ++ sep :: t) = l :: splitOnChar sep t := by
  induction l with
  | nil => simp [splitOnChar]
  | cons c cs ihc =>
    have hc : ¬ c = sep := by intro h; exact hl (by simp [h])
    have hcs : sep ∉ cs := by intro h; exact hl (by simp [h])
    simp only [List.cons_append, splitOnChar, if_neg hc, List.append_eq, ihc hcs]

theorem splitOnChar_not_sep (sep : Char) (l : List Char) (hl : sep ∉ l) :
    splitOnChar sep l = [l] := by
  induction l with
  | nil => simp [splitOnChar]
  | cons c cs ihc =>
    have hc : ¬ c = sep := by intro h; exact hl (by simp [h])
    have hcs : sep ∉ cs := by intro h; exact hl (by simp [h])
    simp only [splitOnChar, if_neg hc, ihc hcs]

theorem splitOnChar_joinWith (sep : Char) (ls : List (List Char)) (hne : ls ≠ [])
    (hsep : ∀ l ∈ ls, sep ∉ l) : splitOnChar sep (joinWith sep ls) = ls := by
  induction ls with
  | nil => exact absurd rfl hne
  | cons l rest ih =>
    cases rest with
    | nil => exact splitOnChar_not_sep sep l (hsep l (by simp))
    | cons l2 rest2 =>
      rw [joinWith_cons_cons,
        splitOnChar_append_not_sep sep l (hsep l (by simp)) _,
        ih (by simp) (fun x hx => hsep x (by simp [hx]))]

/-! ## Layers (`src/extract.ts`) -/

inductive LayerRole where
  | code
  | prose
deriving DecidableEq, Repr

structure Layer where
  role : LayerRole
  content : List Char
  offset : Nat
  originalLength : Nat
deriving DecidableEq, Repr

/-- Role of one source line: prose iff, after `trimStart`, it starts with `///`. -/
def roleOf (line : List Char) : LayerRole :=
  if startsWithSlashes (line.dropWhile isJsWs) then .prose else .code

/-- Text a line contributes to its layer's `content`: for a prose line the
marker (and at most one following space) is stripped from the trimmed line;
a code line is kept verbatim. -/
def lineBody (line : List Char) : List Char :=
  match roleOf line with
  | .prose =>
    let p := (line.dropWhile isJsWs).drop 3
    match p with
    | ' ' :: r => r
    | _ => p
  | .code => line

/-- Models `flush` of `extractLayers`: emit the accumulated layer if its content is
nonempty and a role has been established. -/
def flushOut (role? : Option LayerRole) (content : List Char) (curOff curLen : Nat) :
    List Layer :=
  match role? with
  | some r => if content = [] then [] else [⟨r, content, curOff, curLen⟩]
  | none => []

/-- The line scan of `extractLayers`, with the mutable loop state
(`currentRole`, `currentContent`, `currentOffset`, `currentOriginalLength`,
`offset`) passed explicitly and flushed layers emitted at the head.
`lineLength` is `line.length + 1` except for the final line. -/
def scanGo (role? : Option LayerRole) (content : List Char) (curOff curLen offset : Nat) :
    List (List Char) → List Layer
  | [] => flushOut role? content curOff curLen
  | line :: rest =>
    let lineLength := line.length + (if rest = [] then 0 else 1)
    let ext := lineBody line ++ (if rest = [] then [] else ['\n'])
    if role? = some (roleOf line) then
      scanGo role? (content ++ ext) curOff (curLen + lineLength) (offset + lineLength) rest
    else
      flushOut role? content curOff curLen ++
        scanGo (some (roleOf line)) ext offset lineLength (offset + lineLength) rest

/-- Blank code layer absorbed into the preceding prose layer (merge pass):
its blank-line count (newlines in content, minimum one) is appended as
newlines and its `originalLength` is added. -/
def absorbBlank (prev layer : Layer) : Layer :=
  { prev with
    content := prev.content ++ List.replicate (max 1 (layer.content.count '\n')) '\n',
    originalLength := prev.originalLength + layer.originalLength }

/-- Adjacent prose layers are concatenated (merge pass, degenerate case). -/
def concatProse (prev layer : Layer) : Layer :=
  { prev with
    content := prev.content ++ layer.content,
    originalLength := prev.originalLength + layer.originalLength }

/-- The merge pass of `extractLayers`.  `last?` is the last element of the
`merged` array (the only one the JS loop ever mutates); earlier elements are
emitted at the head.  A whitespace-only code layer between two prose layers
is absorbed into the preceding prose layer; other whitespace-only code
layers are skipped (`continue`); adjacent prose layers are concatenated. -/
def mergeAux (last? : Option Layer) : List Layer → List Layer
  | [] => last?.toList
  | layer :: rest =>
    if layer.role = .code ∧ isBlank layer.content = true then
      match last?, rest.head? with
      | some prev, some next =>
        if prev.role = .prose ∧ next.role = .prose then
          mergeAux (some (absorbBlank prev layer)) rest
        else
          mergeAux last? rest
      | _, _ => mergeAux last? rest
    else
      match last? with
      | some prev =>
        if layer.role = .prose ∧ prev.role = .prose then
          mergeAux (some (concatProse prev layer)) rest
        else
          prev :: mergeAux (some layer) rest
      | none => mergeAux (some layer) rest

def extractLayersLines (lines : List (List Char)) : List Layer :=
  mergeAux none (scanGo none [] 0 0 0 lines)

/-- Models `extractLayers(source)` from `src/extract.ts`. -/
def extractLayers (source : List Char) : List Layer :=
  extractLayersLines (splitLines source)

/-- Models `illiterate(source)` from `src/extract.ts`, per line. -/
def illiterateLine (line : List Char) : List Char :=
  if startsWithSlashes (line.dropWhile isJsWs) then List.replicate line.length ' '
  else line

/-- Models `illiterate(source)` from `src/extract.ts`. -/
def illiterate (source : List Char) : List Char :=
  joinLines ((splitLines source).map illiterateLine)

/-! ## Token rendering (`src/html/tokens.ts`) -/

/-- Alphanumeric per the JS regex `[^a-zA-Z0-9]`. -/
def isAlphaNum (c : Char) : Bool :=
  ('a' ≤ c && c ≤ 'z') || ('A' ≤ c && c ≤ 'Z') || ('0' ≤ c && c ≤ '9')

/-- Models `sanitizeId`: every character that is not a letter or digit becomes `-`. -/
def sanitizeId (s : List Char) : List Char :=
  s.map (fun c => if isAlphaNum c then c else '-')

/-- One global single-character replacement `s.replace(/c/g, r)`. -/
def replaceChar (c : Char) (r : List Char) (s : List Char) : List Char :=
  s.flatMap (fun x => if x = c then r else [x])

/-- Models `escapeHtml`: `&` first, then `<`, `>`, `"`, each replaced globally by
its entity. -/
def escapeHtml (s : List Char) : List Char :=
  replaceChar '"' ('&' :: 'q' :: 'u' :: 'o' :: 't' :: ';' :: [])
    (replaceChar '>' ('&' :: 'g' :: 't' :: ';' :: [])
      (replaceChar '<' ('&' :: 'l' :: 't' :: ';' :: [])
        (replaceChar '&' ('&' :: 'a' :: 'm' :: 'p' :: ';' :: []) s)))

/-- Decimal digits of a number as interpolated by a JS template literal. -/
def natDigits (n : Nat) : List Char :=
  if h : n < 10 then [Char.ofNat (48 + n)]
  else natDigits (n / 10) ++ [Char.ofNat (48 + n % 10)]
decreasing_by exact Nat.div_lt_self (Nat.lt_of_lt_of_le (by decide) (Nat.le_of_not_lt h)) (by decide)

/-- The definition key built in `render.ts`:
`` `${def.fileName}:${def.textSpan.start}` ``. -/
def defIdOf (fileName : List Char) (start : Nat) : List Char :=
  fileName ++ ':' :: natDigits start

/-- The anchor derived from a definition id in `renderToken`
(`` `def-${sanitizeId(definitionId)}` ``), used both for the `id` of a
definition token and for the href fragment of a reference token. -/
def defAnchorOf (definitionId : List Char) : List Char :=
  ('d' :: 'e' :: 'f' :: '-' :: []) ++ sanitizeId definitionId

/-- The anchor built by the index builder (`renderSymbolChildren` in
`html/index.ts`): the sanitized filename and the raw decimal offset,
joined by dashes after the fixed prefix. -/
def indexAnchorOf (filename : List Char) (start : Nat) : List Char :=
  ('d' :: 'e' :: 'f' :: '-' :: []) ++ sanitizeId filename ++ '-' :: natDigits start

/-- Models `TokenInfo` from `html/types.ts`.  Optional string fields are modelled
as `List Char` with `[]` for absent — this matches JS truthiness, where both
`undefined` and the empty string are falsy. -/
structure TokenInfo where
  start : Nat := 0
  length : Nat := 0
  text : List Char := []
  classes : List (List Char) := []
  definitionId : List Char := []
  definitionFile : List Char := []
  isDefinition : Bool := false
  quickInfo : List Char := []
deriving DecidableEq, Repr

structure RenderTokenOptions where
  knownFiles : Option (List (List Char)) := none
  computeLink : Option (List Char → List Char → List Char → List Char) := none
  includeExternals : Bool := false
  /-- whether a `quickInfoMap` was supplied -/
  useQuickInfo : Bool := false
  /-- whether a `tokenIdCounter` was supplied -/
  useCounter : Bool := false

/-- Mutable state threaded through `renderToken`: the quick-info side map
and the token id counter. -/
structure RenderSt where
  quickInfoMap : List (List Char × List Char) := []
  counter : Nat := 0
deriving DecidableEq, Repr

/-- Models `Map.set` on an association list: overwrite if the key is present,
append otherwise. -/
def mapSet (m : List (List Char × List Char)) (k v : List Char) :
    List (List Char × List Char) :=
  if m.any (fun p => p.1 = k) then m.map (fun p => if p.1 = k then (p.1, v) else p)
  else m ++ [(k, v)]

def classAttrOf (classes : List (List Char)) : List Char :=
  joinWith ' ' (classes.map (fun c => ('t' :: 's' :: '-' :: []) ++ c))

def spanHtml (idAttr classAttr text : List Char) : List Char :=
  ('<' :: 's' :: 'p' :: 'a' :: 'n' :: []) ++ idAttr ++
    (' ' :: 'c' :: 'l' :: 'a' :: 's' :: 's' :: '=' :: '"' :: []) ++ classAttr ++
    ('"' :: '>' :: []) ++ text ++ ('<' :: '/' :: 's' :: 'p' :: 'a' :: 'n' :: '>' :: [])

def aDefHtml (defId classAttr text : List Char) : List Char :=
  ('<' :: 'a' :: ' ' :: 'i' :: 'd' :: '=' :: '"' :: []) ++ defId ++
    ('"' :: ' ' :: 'h' :: 'r' :: 'e' :: 'f' :: '=' :: '"' :: '#' :: []) ++ defId ++
    ('"' :: ' ' :: 'c' :: 'l' :: 'a' :: 's' :: 's' :: '=' :: '"' :: []) ++ classAttr ++
    ('"' :: '>' :: []) ++ text ++ ('<' :: '/' :: 'a' :: '>' :: [])

def aRefHtml (idAttr href classAttr text : List Char) : List Char :=
  ('<' :: 'a' :: []) ++ idAttr ++
    (' ' :: 'h' :: 'r' :: 'e' :: 'f' :: '=' :: '"' :: []) ++ href ++
    ('"' :: ' ' :: 'c' :: 'l' :: 'a' :: 's' :: 's' :: '=' :: '"' :: []) ++ classAttr ++
    ('"' :: '>' :: []) ++ text ++ ('<' :: '/' :: 'a' :: '>' :: [])

/-- Builds the id attribute when a token id was assigned, else empty. -/
def idAttrOf (tokenId? : Option (List Char)) : List Char :=
  match tokenId? with
  | some tid => (' ' :: 'i' :: 'd' :: '=' :: '"' :: []) ++ tid ++ ('"' :: [])
  | none => []

/-- The fallback `.ts` → `.html` suffix transform (`toHtmlPath` in
`html/index.ts` and the inline fallback in `renderToken`):
`p.replace(/\.d\.ts$/, ".d.html").replace(/\.ts$/, ".html")`. -/
def toHtmlPath (p : List Char) : List Char :=
  if ('.' :: 'd' :: '.' :: 't' :: 's' :: []).isSuffixOf p then
    p.take (p.length - 5) ++ ('.' :: 'd' :: '.' :: 'h' :: 't' :: 'm' :: 'l' :: [])
  else if ('.' :: 't' :: 's' :: []).isSuffixOf p then
    p.take (p.length - 3) ++ ('.' :: 'h' :: 't' :: 'm' :: 'l' :: [])
  else p

/-- Models `renderToken` from `html/tokens.ts`, returning the produced markup and
the updated quick-info map / counter state. -/
def renderToken (token : TokenInfo) (currentFile : List Char)
    (opts : RenderTokenOptions) (st : RenderSt) : List Char × RenderSt :=
  let classAttr := classAttrOf token.classes
  let text := escapeHtml token.text
  let assignId := token.quickInfo ≠ [] ∧ opts.useQuickInfo = true ∧ opts.useCounter = true
  let tokenId? : Option (List Char) :=
    if assignId then some ('t' :: natDigits st.counter) else none
  let st1 : RenderSt :=
    if assignId then
      ⟨mapSet st.quickInfoMap ('t' :: natDigits st.counter) token.quickInfo, st.counter + 1⟩
    else st
  if token.isDefinition then
    let defId := defAnchorOf token.definitionId
    let st2 : RenderSt :=
      if token.quickInfo ≠ [] ∧ opts.useQuickInfo = true then
        ⟨mapSet st1.quickInfoMap defId token.quickInfo, st1.counter⟩
      else st1
    (aDefHtml defId classAttr text, st2)
  else if token.definitionId ≠ [] ∧ token.definitionFile ≠ [] then
    let anchor := defAnchorOf token.definitionId
    let isExternal : Bool :=
      match opts.knownFiles with
      | some kf => !kf.contains token.definitionFile
      | none => false
    if isExternal = true ∧ opts.includeExternals = false then
      (spanHtml (idAttrOf tokenId?) classAttr text, st1)
    else
      let href :=
        if token.definitionFile = currentFile then '#' :: anchor
        else
          match opts.computeLink with
          | some f => f currentFile token.definitionFile anchor
          | none => toHtmlPath token.definitionFile ++ '#' :: anchor
      (aRefHtml (idAttrOf tokenId?) href classAttr text, st1)
  else
    (spanHtml (idAttrOf tokenId?) classAttr text, st1)

/-! ## Link computation (`html/index.ts`)

`path.relative` / `path.dirname` are modelled for POSIX paths without `..`
or `.` segments (the arguments here are project-root-relative output paths,
already normalized): the relative path drops the common leading segments
and climbs with one `..` per remaining source directory. -/

def splitSlash (p : List Char) : List (List Char) := splitOnChar '/' p

def joinSlash (ls : List (List Char)) : List Char := joinWith '/' ls

def segsOf (p : List Char) : List (List Char) :=
  (splitSlash p).filter (fun s => s ≠ [] && s ≠ ('.' :: []))

def dropCommon : List (List Char) → List (List Char) →
    List (List Char) × List (List Char)
  | a :: as, b :: bs => if a = b then dropCommon as bs else (a :: as, b :: bs)
  | as, bs => (as, bs)

/-- Models `path.posix.relative` on already-normalized relative paths. -/
def pathRelative (fromP toP : List Char) : List Char :=
  let p := dropCommon (segsOf fromP) (segsOf toP)
  joinSlash (p.1.map (fun _ => '.' :: '.' :: []) ++ p.2)

/-- Models `path.posix.dirname` on a relative path: everything before the last
slash, or `.` when there is no slash. -/
def dirnameOf (p : List Char) : List Char :=
  let parts := splitSlash p
  if parts.length ≤ 1 then ('.' :: []) else joinSlash parts.dropLast

/-- Models `stripDotDot` from `generateHtmlMulti`: drop every leading `../`. -/
def stripDotDot : List Char → List Char
  | '.' :: '.' :: '/' :: rest => stripDotDot rest
  | p => p

/-- Models `toOutputRelative` from `generateHtmlMulti`. -/
def toOutputRelative (projectRoot file : List Char) : List Char :=
  stripDotDot (pathRelative projectRoot file)

/-- Models `computeLink` from `generateHtmlMulti`. -/
def computeLink (projectRoot fromFile toFile anchor : List Char) : List Char :=
  let fromRel := toHtmlPath (toOutputRelative projectRoot fromFile)
  let toRel := toHtmlPath (toOutputRelative projectRoot toFile)
  pathRelative (dirnameOf fromRel) toRel ++ '#' :: anchor

/-- Modelled from the spec's words for the C8 comparison: a file's
normalized output identifier is its path made relative to the project root,
with every leading parent-directory segment stripped, under the
`.ts` → `.html` suffix transform. -/
def normalizedOutputId (projectRoot file : List Char) : List Char :=
  toHtmlPath (stripDotDot (pathRelative projectRoot file))

/-! ## The shared definition registry (`html/render.ts`)

The TypeScript language service is external; its per-token answers
(classification type and definition lookup result) are inputs to the model.
The registry is an association list with `Map.set` semantics. -/

/-- A definition-location answer from `getDefinitionAtPosition`. -/
structure DefLoc where
  fileName : List Char
  start : Nat
deriving DecidableEq, Repr

/-- One syntactic span of a code layer together with the service's
definition answer for its start offset. -/
structure SpanIn where
  start : Nat
  classificationType : List Char
  defAt : Option DefLoc
deriving DecidableEq, Repr

/-- A resolved location stored in the registry. -/
structure SymLoc where
  file : List Char
  line : Nat
  column : Nat
deriving DecidableEq, Repr

/-- The linkable classification types of `html/tokens.ts`. -/
def linkableTypes : List (List Char) :=
  [('i' :: 'd' :: 'e' :: 'n' :: 't' :: 'i' :: 'f' :: 'i' :: 'e' :: 'r' :: []),
   ('i' :: 'n' :: 't' :: 'e' :: 'r' :: 'f' :: 'a' :: 'c' :: 'e' :: ' ' :: 'n' :: 'a' :: 'm' :: 'e' :: []),
   ('c' :: 'l' :: 'a' :: 's' :: 's' :: ' ' :: 'n' :: 'a' :: 'm' :: 'e' :: []),
   ('e' :: 'n' :: 'u' :: 'm' :: ' ' :: 'n' :: 'a' :: 'm' :: 'e' :: []),
   ('t' :: 'y' :: 'p' :: 'e' :: ' ' :: 'p' :: 'a' :: 'r' :: 'a' :: 'm' :: 'e' :: 't' :: 'e' :: 'r' :: ' ' :: 'n' :: 'a' :: 'm' :: 'e' :: []),
   ('p' :: 'a' :: 'r' :: 'a' :: 'm' :: 'e' :: 't' :: 'e' :: 'r' :: ' ' :: 'n' :: 'a' :: 'm' :: 'e' :: []),
   ('m' :: 'o' :: 'd' :: 'u' :: 'l' :: 'e' :: ' ' :: 'n' :: 'a' :: 'm' :: 'e' :: []),
   ('s' :: 't' :: 'r' :: 'i' :: 'n' :: 'g' :: [])]

def isLinkable (classificationType : List Char) : Bool :=
  linkableTypes.contains classificationType

/-- Registry association list with JS `Map.set` semantics. -/
abbrev Registry := List (List Char × SymLoc)

def regSet : Registry → List Char → SymLoc → Registry
  | [], k, v => [(k, v)]
  | (k0, v0) :: rest, k, v =>
    if k0 = k then (k0, v) :: rest else (k0, v0) :: regSet rest k v

def regGet (reg : Registry) (k : List Char) : Option SymLoc :=
  (reg.find? (fun p => p.1 = k)).map Prod.snd

/-- Models `ts.getLineAndCharacterOfPosition`, 0-based: line is the number of
newlines before `off`, character the distance to the previous newline. -/
def lineColOf (text : List Char) (off : Nat) : Nat × Nat :=
  let pre := text.take off
  (pre.count '\n', ((pre.reverse).takeWhile (fun c => c ≠ '\n')).length)

/-- The location stored by `renderCodeBlock` for a definition site
(1-based line and column of the token's start in the current file). -/
def symLocOf (text : List Char) (fileName : List Char) (start : Nat) : SymLoc :=
  ⟨fileName, (lineColOf text start).1 + 1, (lineColOf text start).2 + 1⟩

/-- The registry update performed by `renderCodeBlock` for one syntactic
span: when the span is linkable and its definition lookup points exactly at
the span's own position in the current file, the key
`` `${def.fileName}:${def.textSpan.start}` `` is set to the resolved
location; otherwise the registry is untouched. -/
def registerStep (srcs : List Char → List Char) (filename : List Char)
    (reg : Registry) (span : SpanIn) : Registry :=
  if isLinkable span.classificationType then
    match span.defAt with
    | some d =>
      if d.fileName = filename ∧ d.start = span.start then
        regSet reg (defIdOf d.fileName d.start) (symLocOf (srcs filename) filename span.start)
      else reg
    | none => reg
  else reg

def processFile (srcs : List Char → List Char) (reg : Registry)
    (filename : List Char) (spans : List SpanIn) : Registry :=
  spans.foldl (registerStep srcs filename) reg

/-- A multi-file build: files processed in order, each contributing its
spans' registrations to the shared registry. -/
def processBuild (srcs : List Char → List Char) (reg : Registry)
    (files : List (List Char × List SpanIn)) : Registry :=
  files.foldl (fun r fp => processFile srcs r fp.1 fp.2) reg

/-- The write events (registered keys, in order) of one span. -/
def stepWrites (filename : List Char) (span : SpanIn) : List (List Char) :=
  if isLinkable span.classificationType then
    match span.defAt with
    | some d =>
      if d.fileName = filename ∧ d.start = span.start then [defIdOf d.fileName d.start]
      else []
    | none => []
  else []

/-- All write events of a build, in processing order. -/
def buildWrites (files : List (List Char × List SpanIn)) : List (List Char) :=
  files.flatMap (fun fp => fp.2.flatMap (stepWrites fp.1))

/-! ## C9: escapeHtml -/

theorem not_mem_replaceChar (c0 c : Char) (r s : List Char)
    (hr : c0 ∉ r) (hs : c0 = c ∨ c0 ∉ s) : c0 ∉ replaceChar c r s := by
  intro hmem
  rcases List.mem_flatMap.mp hmem with ⟨x, hx, hin⟩
  by_cases hxc : x = c
  · rw [if_pos hxc] at hin
    exact hr hin
  · rw [if_neg hxc] at hin
    rcases List.mem_singleton.mp hin with rfl
    rcases hs with rfl | hns
    · exact hxc rfl
    · exact hns hx

/-- Claim C9: for every input string, `escapeHtml` output contains none of the
characters `<`, `>`, `"`: each is replaced by its HTML entity (with `&`
escaped first), so emitted token and gap text cannot introduce elements or
break out of an attribute value. -/
theorem escapeHtml_no_specials (s : List Char) :
    '<' ∉ escapeHtml s ∧ '>' ∉ escapeHtml s ∧ '"' ∉ escapeHtml s := by
  unfold escapeHtml
  refine ⟨?_, ?_, ?_⟩
  · apply not_mem_replaceChar _ _ _ _ (by decide)
    right
    apply not_mem_replaceChar _ _ _ _ (by decide)
    right
    apply not_mem_replaceChar _ _ _ _ (by decide)
    left
    rfl
  · apply not_mem_replaceChar _ _ _ _ (by decide)
    right
    apply not_mem_replaceChar _ _ _ _ (by decide)
    left
    rfl
  · apply not_mem_replaceChar _ _ _ _ (by decide)
    left
    rfl

/-! ## C6: illiterate -/

theorem joinWith_map_length (sep : Char) (f : List Char → List Char)
    (hf : ∀ l, (f l).length = l.length) (ls : List (List Char)) :
    (joinWith sep (ls.map f)).length = (joinWith sep ls).length := by
  induction ls with
  | nil => rfl
  | cons l rest ih =>
    cases rest with
    | nil => simp [joinWith, hf]
    | cons l2 rest2 =>
      simp only [List.map_cons] at ih ⊢
      rw [joinWith_cons_cons, joinWith_cons_cons]
      simp [hf, ih]

theorem illiterateLine_length (l : List Char) : (illiterateLine l).length = l.length := by
  unfold illiterateLine
  split <;> simp

theorem illiterateLine_no_newline (l : List Char) (hl : '\n' ∉ l) :
    '\n' ∉ illiterateLine l := by
  unfold illiterateLine
  split
  · intro h
    have := List.eq_of_mem_replicate h
    exact absurd this (by decide)
  · exact hl

theorem dropWhile_isJsWs_replicate_space (n : Nat) :
    (List.replicate n ' ').dropWhile isJsWs = [] := by
  induction n with
  | zero => rfl
  | succ m ih => simp [List.replicate_succ, List.dropWhile_cons, ih, isJsWs]

theorem illiterateLine_idem (l : List Char) :
    illiterateLine (illiterateLine l) = illiterateLine l := by
  unfold illiterateLine
  split
  · rw [dropWhile_isJsWs_replicate_space]
    simp [startsWithSlashes]
  · rfl

theorem splitLines_illiterate (s : List Char) :
    splitLines (illiterate s) = (splitLines s).map illiterateLine := by
  unfold illiterate joinLines splitLines
  apply splitOnChar_joinWith
  · simp
    exact splitOnChar_ne_nil '\n' s
  · intro l hl
    rcases List.mem_map.mp hl with ⟨l0, hl0, rfl⟩
    exact illiterateLine_no_newline l0 (mem_splitOnChar_not_sep '\n' s l0 hl0)

/-- Claim C6: `illiterate` preserves the length and the line structure of the
source (the lines of the output are exactly the lines of the input mapped
through `illiterateLine`, which turns each prose line into a run of spaces
of its original length and keeps every other line unchanged), and applying
it twice equals applying it once. -/
theorem illiterate_spec (s : List Char) :
    (illiterate s).length = s.length ∧
    splitLines (illiterate s) = (splitLines s).map illiterateLine ∧
    (∀ l, startsWithSlashes (l.dropWhile isJsWs) = true →
      illiterateLine l = List.replicate l.length ' ') ∧
    (∀ l, startsWithSlashes (l.dropWhile isJsWs) = false → illiterateLine l = l) ∧
    illiterate (illiterate s) = illiterate s := by
  refine ⟨?_, splitLines_illiterate s, ?_, ?_, ?_⟩
  · conv_rhs => rw [← joinWith_splitOnChar '\n' s]
    exact joinWith_map_length '\n' illiterateLine illiterateLine_length (splitOnChar '\n' s)
  · intro l hl
    unfold illiterateLine
    rw [if_pos hl]
  · intro l hl
    unfold illiterateLine
    rw [hl]
    simp
  · show illiterate (illiterate s) = illiterate s
    unfold illiterate
    rw [show splitLines (joinLines ((splitLines s).map illiterateLine)) =
          splitLines (illiterate s) from rfl]
    rw [splitLines_illiterate s, List.map_map]
    have : illiterateLine ∘ illiterateLine = illiterateLine := by
      funext l
      exact illiterateLine_idem l
    rw [this]

/-! ## C2: anchor agreement -/

theorem digit_alphaNum (d : Nat) (hd : d < 10) : isAlphaNum (Char.ofNat (48 + d)) = true := by
  interval_cases d <;> decide

theorem natDigits_alphaNum (n : Nat) : ∀ c ∈ natDigits n, isAlphaNum c = true := by
  induction n using Nat.strong_induction_on with
  | _ n ih =>
    rw [natDigits]
    split
    · rename_i h
      intro c hc
      rcases List.mem_singleton.mp hc with rfl
      exact digit_alphaNum n h
    · rename_i h
      intro c hc
      rcases List.mem_append.mp hc with h1 | h1
      · exact ih (n / 10)
          (Nat.div_lt_self (Nat.lt_of_lt_of_le (by decide) (Nat.le_of_not_lt h)) (by decide))
          c h1
      · rcases List.mem_singleton.mp h1 with rfl
        exact digit_alphaNum (n % 10) (Nat.mod_lt n (by decide))

theorem sanitizeId_append (a b : List Char) :
    sanitizeId (a ++ b) = sanitizeId a ++ sanitizeId b := by
  simp [sanitizeId]

theorem sanitizeId_natDigits (n : Nat) : sanitizeId (natDigits n) = natDigits n := by
  unfold sanitizeId
  apply List.map_congr_left ?_ |>.trans (List.map_id _)
  intro c hc
  simp [natDigits_alphaNum n c hc]

/-- Claim C2: the anchor for a definition key is the same string everywhere it is
rendered: the `id` emitted on a definition token, the href fragment emitted
for a same-key reference token, and the anchor built by the index builder
all equal `def-` followed by the key `file:offset` with every
non-alphanumeric character replaced by `-`. -/
theorem anchor_agreement (file : List Char) (off : Nat) (startP len : Nat)
    (text : List Char) (classes : List (List Char)) (st : RenderSt)
    (hfile : file ≠ []) :
    defAnchorOf (defIdOf file off) =
      ('d' :: 'e' :: 'f' :: '-' :: []) ++ sanitizeId (defIdOf file off) ∧
    indexAnchorOf file off = defAnchorOf (defIdOf file off) ∧
    (renderToken ⟨startP, len, text, classes, defIdOf file off, file, true, []⟩
        file {} st).1 =
      aDefHtml (defAnchorOf (defIdOf file off)) (classAttrOf classes) (escapeHtml text) ∧
    (renderToken ⟨startP, len, text, classes, defIdOf file off, file, false, []⟩
        file {} st).1 =
      aRefHtml [] ('#' :: defAnchorOf (defIdOf file off)) (classAttrOf classes)
        (escapeHtml text) := by
  refine ⟨rfl, ?_, ?_, ?_⟩
  · unfold indexAnchorOf defAnchorOf defIdOf
    rw [sanitizeId_append]
    have h1 : sanitizeId (':' :: natDigits off) = '-' :: natDigits off := by
      show List.map _ (':' :: natDigits off) = _
      simp only [List.map_cons]
      rw [show (if isAlphaNum ':' = true then ':' else '-') = '-' from by decide]
      rw [show List.map (fun c => if isAlphaNum c = true then c else '-') (natDigits off) =
            sanitizeId (natDigits off) from rfl, sanitizeId_natDigits]
    rw [h1]
    simp
  · simp [renderToken]
  · have hne : defIdOf file off ≠ [] := by
      unfold defIdOf
      intro h
      have := congrArg List.length h
      simp at this
    simp only [renderToken]
    rw [if_neg (by simp), if_pos ⟨hne, hfile⟩]
    simp [idAttrOf]

/-! ## C3: external references degrade to plain spans -/

/-- Claim C3: when the token's definition file is not in the known file set and
external inclusion is disabled, `renderToken` returns the classified,
non-linked `<span>` (carrying the `ts-` classification classes), and in
particular not an `<a>` element. -/
theorem external_ref_renders_span (token : TokenInfo) (currentFile : List Char)
    (opts : RenderTokenOptions) (st : RenderSt) (kf : List (List Char))
    (hdef : token.isDefinition = false)
    (hid : token.definitionId ≠ [])
    (hfile : token.definitionFile ≠ [])
    (hkf : opts.knownFiles = some kf)
    (hout : kf.contains token.definitionFile = false)
    (hext : opts.includeExternals = false) :
    (renderToken token currentFile opts st).1 =
      spanHtml
        (idAttrOf (if token.quickInfo ≠ [] ∧ opts.useQuickInfo = true ∧ opts.useCounter = true
          then some ('t' :: natDigits st.counter) else none))
        (classAttrOf token.classes) (escapeHtml token.text) ∧
    List.isPrefixOf ('<' :: 'a' :: []) (renderToken token currentFile opts st).1 = false := by
  have hmain : (renderToken token currentFile opts st).1 =
      spanHtml
        (idAttrOf (if token.quickInfo ≠ [] ∧ opts.useQuickInfo = true ∧ opts.useCounter = true
          then some ('t' :: natDigits st.counter) else none))
        (classAttrOf token.classes) (escapeHtml token.text) := by
    simp only [renderToken, hdef, Bool.false_eq_true, if_false]
    rw [if_pos ⟨hid, hfile⟩, hkf]
    rw [if_pos ⟨by simp only [hout]; rfl, hext⟩]
  refine ⟨hmain, ?_⟩
  rw [hmain]
  rfl

/-! ## C8: computeLink -/

/-- Does a path still carry a leading parent-directory segment? -/
def hasDotDotPrefix : List Char → Bool
  | '.' :: '.' :: '/' :: _ => true
  | _ => false

theorem stripDotDot_no_dotdot (p : List Char) :
    hasDotDotPrefix (stripDotDot p) = false := by
  induction p using stripDotDot.induct with
  | case1 rest ih =>
    rw [stripDotDot]
    exact ih
  | case2 p h =>
    rw [stripDotDot.eq_def]
    split
    · rename_i rest
      exact absurd rfl (by exact h rest)
    · rename_i hmatch
      rw [hasDotDotPrefix.eq_def]
      split
      · rename_i rest
        exact absurd rfl (by exact h rest)
      · rfl

/-- Claim C8: `computeLink` is the relative path from the directory of the
source file's normalized output identifier to the target file's normalized
output identifier, followed by `#` and the anchor, where normalization
makes the path root-relative, strips every leading `../` segment and
applies the `.ts` → `.html` suffix transform; and the normalization indeed
leaves no leading parent-directory segment. -/
theorem computeLink_spec (projectRoot fromFile toFile anchor : List Char) :
    computeLink projectRoot fromFile toFile anchor =
      pathRelative (dirnameOf (normalizedOutputId projectRoot fromFile))
        (normalizedOutputId projectRoot toFile) ++ '#' :: anchor ∧
    (∀ p : List Char, hasDotDotPrefix (stripDotDot p) = false) := by
  exact ⟨rfl, stripDotDot_no_dotdot⟩

/-! ## Positional bookkeeping of the extractor (C1, C4, C5, C10) -/

def sumLen (ls : List Layer) : Nat := (ls.map Layer.originalLength).sum

def firstOff : List Layer → Nat
  | [] => 0
  | l :: _ => l.offset

/-- Layers chain: the first starts at `o` and each subsequent layer starts
where the previous one ends. -/
def chainedFrom : Nat → List Layer → Prop
  | _, [] => True
  | o, l :: ls => l.offset = o ∧ chainedFrom (o + l.originalLength) ls

/-- Adjacent layers have different roles. -/
def Alt : List Layer → Prop
  | [] => True
  | [_] => True
  | a :: b :: rest => a.role ≠ b.role ∧ Alt (b :: rest)

/-- No two adjacent layers are both prose. -/
def NoAdjProse : List Layer → Prop
  | [] => True
  | [_] => True
  | a :: b :: rest => ¬(a.role = .prose ∧ b.role = .prose) ∧ NoAdjProse (b :: rest)

/-- Total source length of a list of split lines, counting one terminator
per non-final line (matching `lineLength` in the scan). -/
def linesLen : List (List Char) → Nat
  | [] => 0
  | l :: rest => (l.length + (if rest = [] then 0 else 1)) + linesLen rest

theorem linesLen_eq_joinWith_length (ls : List (List Char)) :
    linesLen ls = (joinWith '\n' ls).length := by
  induction ls with
  | nil => rfl
  | cons l rest ih =>
    cases rest with
    | nil => simp [linesLen, joinWith]
    | cons l2 rest2 =>
      rw [joinWith_cons_cons]
      simp only [linesLen] at ih ⊢
      simp [ih]
      omega

theorem linesLen_splitLines (s : List Char) : linesLen (splitLines s) = s.length := by
  unfold splitLines
  rw [linesLen_eq_joinWith_length, joinWith_splitOnChar]

theorem flushOut_none (content : List Char) (curOff curLen : Nat) :
    flushOut none content curOff curLen = [] := rfl

theorem flushOut_some (r : LayerRole) (content : List Char) (curOff curLen : Nat) :
    flushOut (some r) content curOff curLen =
      if content = [] then [] else [⟨r, content, curOff, curLen⟩] := rfl

theorem sumLen_flushOut (role? : Option LayerRole) (content : List Char) (curOff curLen : Nat) :
    sumLen (flushOut role? content curOff curLen) ≤ curLen := by
  cases role? with
  | none => simp [flushOut_none, sumLen]
  | some r =>
    rw [flushOut_some]
    split
    · simp [sumLen]
    · simp [sumLen]

/-- Scan invariant: from a consistent loop state
(`currentOffset + currentOriginalLength = offset`, and an empty accumulator
has zero accumulated length while lines remain) the emitted layers chain
from `currentOffset` and cover at most the accumulated plus remaining
length. -/
theorem scanGo_chain (lines : List (List Char)) :
    ∀ (role? : Option LayerRole) (content : List Char) (curOff curLen offset : Nat),
    curOff + curLen = offset →
    (lines ≠ [] → content = [] → curLen = 0) →
    (role? = none → curLen = 0) →
    chainedFrom curOff (scanGo role? content curOff curLen offset lines) ∧
    sumLen (scanGo role? content curOff curLen offset lines) ≤ curLen + linesLen lines := by
  induction lines with
  | nil =>
    intro role? content curOff curLen offset hoff hc hn
    constructor
    · show chainedFrom curOff (flushOut role? content curOff curLen)
      cases role? with
      | none => rw [flushOut_none]; trivial
      | some r =>
        rw [flushOut_some]
        split
        · trivial
        · exact ⟨rfl, trivial⟩
    · simpa [linesLen] using sumLen_flushOut role? content curOff curLen
  | cons line rest ih =>
    intro role? content curOff curLen offset hoff hc hn
    rw [scanGo]
    split
    · -- same role: accumulate
      rename_i hrole
      have hc' : rest ≠ [] → content ++ (lineBody line ++ if rest = [] then [] else ['\n']) = [] →
          curLen + (line.length + if rest = [] then 0 else 1) = 0 := by
        intro hrest hcc
        rw [if_neg hrest] at hcc
        simp at hcc
      have hn' : role? = none → curLen + (line.length + if rest = [] then 0 else 1) = 0 := by
        intro h
        rw [h] at hrole
        exact absurd hrole (by simp)
      have := ih role? (content ++ (lineBody line ++ if rest = [] then [] else ['\n']))
        curOff (curLen + (line.length + if rest = [] then 0 else 1))
        (offset + (line.length + if rest = [] then 0 else 1)) (by omega) hc' hn'
      refine ⟨this.1, ?_⟩
      calc sumLen _ ≤ _ := this.2
      _ ≤ curLen + linesLen (line :: rest) := by simp [linesLen]; omega
    · -- role change: flush and restart at `offset`
      rename_i hrole
      have hc' : rest ≠ [] → (lineBody line ++ if rest = [] then [] else ['\n']) = [] →
          (line.length + if rest = [] then 0 else 1) = 0 := by
        intro hrest hcc
        rw [if_neg hrest] at hcc
        simp at hcc
      have hrec := ih (some (roleOf line)) (lineBody line ++ if rest = [] then [] else ['\n'])
        offset (line.length + if rest = [] then 0 else 1)
        (offset + (line.length + if rest = [] then 0 else 1)) rfl hc' (by simp)
      constructor
      · cases hrq : role? with
        | none =>
          have h0 : curLen = 0 := hn hrq
          have : curOff = offset := by omega
          subst this
          simpa [flushOut] using hrec.1
        | some r =>
          rcases List.eq_nil_or_concat content with hcc | ⟨_, _, hcc⟩
          · have h0 : curLen = 0 := hc (by simp) hcc
            have : curOff = offset := by omega
            subst this
            simp only [flushOut, hcc, if_pos rfl, List.nil_append]
            exact hrec.1
          · have hcne : content ≠ [] := by rw [hcc]; simp
            simp only [flushOut, if_neg hcne, List.cons_append, List.nil_append]
            exact ⟨rfl, by rw [hoff]; exact hrec.1⟩
      · have hsf := sumLen_flushOut role? content curOff curLen
        have : sumLen (flushOut role? content curOff curLen ++
            scanGo (some (roleOf line)) (lineBody line ++ if rest = [] then [] else ['\n'])
              offset (line.length + if rest = [] then 0 else 1)
              (offset + (line.length + if rest = [] then 0 else 1)) rest) =
            sumLen (flushOut role? content curOff curLen) +
            sumLen (scanGo (some (roleOf line)) (lineBody line ++ if rest = [] then [] else ['\n'])
              offset (line.length + if rest = [] then 0 else 1)
              (offset + (line.length + if rest = [] then 0 else 1)) rest) := by
          simp [sumLen]
        rw [this]
        have h2 := hrec.2
        simp only [linesLen]
        omega

/-- Scan output alternates roles: consecutive emitted layers differ, and
while a role is accumulating with nonempty content the next emitted layer
carries exactly that role. -/
theorem scanGo_alt (lines : List (List Char)) :
    ∀ (role? : Option LayerRole) (content : List Char) (curOff curLen offset : Nat),
    Alt (scanGo role? content curOff curLen offset lines) ∧
    (∀ r, role? = some r → content ≠ [] →
      scanGo role? content curOff curLen offset lines ≠ [] ∧
      ∀ l, (scanGo role? content curOff curLen offset lines).head? = some l → l.role = r) := by
  induction lines with
  | nil =>
    intro role? content curOff curLen offset
    constructor
    · show Alt (flushOut role? content curOff curLen)
      cases role? with
      | none => rw [flushOut_none]; trivial
      | some r =>
        rw [flushOut_some]
        split
        · trivial
        · trivial
    · intro r hr hcne
      subst hr
      have hsc : scanGo (some r) content curOff curLen offset [] =
          [⟨r, content, curOff, curLen⟩] := by
        show flushOut (some r) content curOff curLen = _
        rw [flushOut_some, if_neg hcne]
      rw [hsc]
      refine ⟨by simp, ?_⟩
      intro l hl
      simp only [List.head?_cons, Option.some_inj] at hl
      rw [← hl]
  | cons line rest ih =>
    intro role? content curOff curLen offset
    rw [scanGo]
    split
    · -- same role
      rename_i hrole
      have hrec := ih role? (content ++ (lineBody line ++ if rest = [] then [] else ['\n']))
        curOff (curLen + (line.length + if rest = [] then 0 else 1))
        (offset + (line.length + if rest = [] then 0 else 1))
      refine ⟨hrec.1, ?_⟩
      intro r hr hcne
      exact hrec.2 r hr (by simp [hcne])
    · -- role change
      rename_i hrole
      have hrec := ih (some (roleOf line)) (lineBody line ++ if rest = [] then [] else ['\n'])
        offset (line.length + if rest = [] then 0 else 1)
        (offset + (line.length + if rest = [] then 0 else 1))
      generalize hG : scanGo (some (roleOf line))
        (lineBody line ++ if rest = [] then [] else ['\n'])
        offset (line.length + if rest = [] then 0 else 1)
        (offset + (line.length + if rest = [] then 0 else 1)) rest = out'
      rw [hG] at hrec
      -- if the continuation's output starts with a layer, that layer's role
      -- is the new role
      have hhead : ∀ l1 t, out' = l1 :: t → l1.role = roleOf line := by
        intro l1 t h1
        rcases eq_or_ne (lineBody line ++ if rest = [] then [] else ['\n']) [] with hcc2 | hcc2
        · exfalso
          have hr : rest = [] := by
            by_contra hrne
            rw [if_neg hrne] at hcc2
            simp at hcc2
          subst hr
          simp at hG hcc2
          rw [scanGo, flushOut_some, if_pos hcc2] at hG
          rw [← hG] at h1
          exact absurd h1.symm (by simp)
        · exact (hrec.2 (roleOf line) rfl hcc2).2 l1 (by rw [h1]; rfl)
      constructor
      · cases hrq : role? with
        | none =>
          simp only [flushOut_none, List.nil_append]
          exact hrec.1
        | some r0 =>
          rcases eq_or_ne content [] with hcc | hcc
          · rw [flushOut_some, if_pos hcc, List.nil_append]
            exact hrec.1
          · rw [flushOut_some, if_neg hcc, List.cons_append, List.nil_append]
            cases houtc : out' with
            | nil => trivial
            | cons l1 t =>
              refine ⟨?_, by rw [← houtc]; exact hrec.1⟩
              have h1 : l1.role = roleOf line := hhead l1 t houtc
              have h2 : r0 ≠ roleOf line := by
                intro h
                rw [hrq, h] at hrole
                exact hrole rfl
              show (⟨r0, content, curOff, curLen⟩ : Layer).role ≠ l1.role
              rw [h1]
              exact h2
      · intro r hr hcne
        rw [hr, flushOut_some, if_neg hcne, List.cons_append, List.nil_append]
        refine ⟨by simp, ?_⟩
        intro l hl
        simp only [List.head?_cons, Option.some_inj] at hl
        rw [← hl]

/-- Invariant between the last merged layer and the upcoming layers: they
differ in role, or both sides are prose (the state right after an
absorption, resolved by the subsequent concatenation). -/
def Seam : Option Layer → List Layer → Prop
  | some p, h :: _ => p.role ≠ h.role ∨ (p.role = .prose ∧ h.role = .prose)
  | _, _ => True

theorem role_dichotomy (r : LayerRole) : r = .code ∨ r = .prose := by
  cases r
  · exact Or.inl rfl
  · exact Or.inr rfl

theorem alt_tail {a : Layer} {ls : List Layer} (h : Alt (a :: ls)) : Alt ls := by
  cases ls with
  | nil => trivial
  | cons b t => exact h.2

theorem sumLen_cons (l : Layer) (ls : List Layer) :
    sumLen (l :: ls) = l.originalLength + sumLen ls := by
  simp [sumLen]

theorem mergeAux_nil (last? : Option Layer) : mergeAux last? [] = last?.toList := rfl

theorem mergeAux_cons (last? : Option Layer) (layer : Layer) (rest : List Layer) :
    mergeAux last? (layer :: rest) =
      if layer.role = .code ∧ isBlank layer.content = true then
        match last?, rest.head? with
        | some prev, some next =>
          if prev.role = .prose ∧ next.role = .prose then
            mergeAux (some (absorbBlank prev layer)) rest
          else mergeAux last? rest
        | _, _ => mergeAux last? rest
      else
        match last? with
        | some prev =>
          if layer.role = .prose ∧ prev.role = .prose then
            mergeAux (some (concatProse prev layer)) rest
          else prev :: mergeAux (some layer) rest
        | none => mergeAux (some layer) rest := rfl

/-- Branch equations of `mergeAux`, conditioned on the tests the JS loop
performs. -/
theorem mergeAux_eq_wsdrop_last (prev layer : Layer)
    (hws : layer.role = .code ∧ isBlank layer.content = true) :
    mergeAux (some prev) [layer] = [prev] := by
  rw [mergeAux_cons, if_pos hws]
  rfl

theorem mergeAux_eq_absorb (prev layer next : Layer) (t : List Layer)
    (hws : layer.role = .code ∧ isBlank layer.content = true)
    (hpp : prev.role = .prose ∧ next.role = .prose) :
    mergeAux (some prev) (layer :: next :: t) =
      mergeAux (some (absorbBlank prev layer)) (next :: t) := by
  rw [mergeAux_cons, if_pos hws]
  show (if prev.role = .prose ∧ next.role = .prose then
      mergeAux (some (absorbBlank prev layer)) (next :: t)
    else mergeAux (some prev) (next :: t)) = _
  rw [if_pos hpp]

theorem mergeAux_eq_wsskip (prev layer next : Layer) (t : List Layer)
    (hws : layer.role = .code ∧ isBlank layer.content = true)
    (hnpp : ¬(prev.role = .prose ∧ next.role = .prose)) :
    mergeAux (some prev) (layer :: next :: t) = mergeAux (some prev) (next :: t) := by
  rw [mergeAux_cons, if_pos hws]
  show (if prev.role = .prose ∧ next.role = .prose then
      mergeAux (some (absorbBlank prev layer)) (next :: t)
    else mergeAux (some prev) (next :: t)) = _
  rw [if_neg hnpp]

theorem mergeAux_eq_wsdrop_none (layer : Layer) (rest : List Layer)
    (hws : layer.role = .code ∧ isBlank layer.content = true) :
    mergeAux none (layer :: rest) = mergeAux none rest := by
  rw [mergeAux_cons, if_pos hws]

theorem mergeAux_eq_concat (prev layer : Layer) (rest : List Layer)
    (hnws : ¬(layer.role = .code ∧ isBlank layer.content = true))
    (hpp : layer.role = .prose ∧ prev.role = .prose) :
    mergeAux (some prev) (layer :: rest) =
      mergeAux (some (concatProse prev layer)) rest := by
  rw [mergeAux_cons, if_neg hnws]
  show (if layer.role = .prose ∧ prev.role = .prose then
      mergeAux (some (concatProse prev layer)) rest
    else prev :: mergeAux (some layer) rest) = _
  rw [if_pos hpp]

theorem mergeAux_eq_push (prev layer : Layer) (rest : List Layer)
    (hnws : ¬(layer.role = .code ∧ isBlank layer.content = true))
    (hnpp : ¬(layer.role = .prose ∧ prev.role = .prose)) :
    mergeAux (some prev) (layer :: rest) = prev :: mergeAux (some layer) rest := by
  rw [mergeAux_cons, if_neg hnws]
  show (if layer.role = .prose ∧ prev.role = .prose then
      mergeAux (some (concatProse prev layer)) rest
    else prev :: mergeAux (some layer) rest) = _
  rw [if_neg hnpp]

theorem mergeAux_eq_start (layer : Layer) (rest : List Layer)
    (hnws : ¬(layer.role = .code ∧ isBlank layer.content = true)) :
    mergeAux none (layer :: rest) = mergeAux (some layer) rest := by
  rw [mergeAux_cons, if_neg hnws]

/-- Merge-pass invariant while a last layer is pending: the output still
chains from `o` and covers no more than the input. -/
theorem mergeAux_some_chain (rest : List Layer) :
    ∀ (prev : Layer) (o : Nat),
    chainedFrom o (prev :: rest) → Alt rest → Seam (some prev) rest →
    chainedFrom o (mergeAux (some prev) rest) ∧
    sumLen (mergeAux (some prev) rest) ≤ prev.originalLength + sumLen rest := by
  induction rest with
  | nil =>
    intro prev o hch _ _
    rw [mergeAux_nil]
    exact ⟨⟨hch.1, trivial⟩, by simp [sumLen]⟩
  | cons layer rest2 ih =>
    intro prev o hch halt hseam
    have hpo : prev.offset = o := hch.1
    have hlo : layer.offset = o + prev.originalLength := hch.2.1
    have hch2 : chainedFrom (o + prev.originalLength + layer.originalLength) rest2 := hch.2.2
    by_cases hws : layer.role = .code ∧ isBlank layer.content = true
    · cases rest2 with
      | nil =>
        rw [mergeAux_eq_wsdrop_last prev layer hws]
        refine ⟨⟨hpo, trivial⟩, ?_⟩
        simp only [sumLen_cons]
        simp [sumLen]
      | cons next t =>
        have hnext : next.role = .prose := by
          rcases role_dichotomy next.role with hc | hp
          · exact absurd (hws.1.trans hc.symm) halt.1
          · exact hp
        have hprev : prev.role = .prose := by
          rcases hseam with hne | hpp
          · rcases role_dichotomy prev.role with hc | hp
            · exact absurd (hc.trans hws.1.symm) hne
            · exact hp
          · exact hpp.1
        rw [mergeAux_eq_absorb prev layer next t hws ⟨hprev, hnext⟩]
        have habs := ih (absorbBlank prev layer) o
          ⟨by simp [absorbBlank, hpo], by
            show chainedFrom (o + (absorbBlank prev layer).originalLength) (next :: t)
            have h1 : (absorbBlank prev layer).originalLength =
                prev.originalLength + layer.originalLength := rfl
            rw [h1, ← Nat.add_assoc]
            exact hch2⟩
          (alt_tail halt)
          (Or.inr ⟨hprev, hnext⟩)
        refine ⟨habs.1, ?_⟩
        calc sumLen _ ≤ _ := habs.2
        _ ≤ prev.originalLength + sumLen (layer :: next :: t) := by
          have h1 : (absorbBlank prev layer).originalLength =
              prev.originalLength + layer.originalLength := rfl
          rw [h1]
          simp only [sumLen_cons]
          omega
    · by_cases hpp : layer.role = .prose ∧ prev.role = .prose
      · rw [mergeAux_eq_concat prev layer rest2 hws hpp]
        have hcon := ih (concatProse prev layer) o
          ⟨by simp [concatProse, hpo], by
            show chainedFrom (o + (concatProse prev layer).originalLength) rest2
            have h1 : (concatProse prev layer).originalLength =
                prev.originalLength + layer.originalLength := rfl
            rw [h1, ← Nat.add_assoc]
            exact hch2⟩
          (alt_tail halt)
          (by
            cases rest2 with
            | nil => trivial
            | cons h2 t2 =>
              show Seam (some (concatProse prev layer)) (h2 :: t2)
              left
              have h1 : (concatProse prev layer).role = prev.role := rfl
              rw [h1, hpp.2, ← hpp.1]
              exact halt.1)
        refine ⟨hcon.1, ?_⟩
        calc sumLen _ ≤ _ := hcon.2
        _ ≤ prev.originalLength + sumLen (layer :: rest2) := by
          have h1 : (concatProse prev layer).originalLength =
              prev.originalLength + layer.originalLength := rfl
          rw [h1]
          simp only [sumLen_cons]
          omega
      · rw [mergeAux_eq_push prev layer rest2 hws hpp]
        have hpush := ih layer (o + prev.originalLength) ⟨hlo, hch2⟩ (alt_tail halt)
          (by
            cases rest2 with
            | nil => trivial
            | cons h2 t2 =>
              show Seam (some layer) (h2 :: t2)
              left
              exact halt.1)
        refine ⟨⟨hpo, hpush.1⟩, ?_⟩
        simp only [sumLen_cons]
        have := hpush.2
        omega

/-- Merge-pass invariant with no pending layer: the output chains from
some offset at or after `o` and fits within the input span. -/
theorem mergeAux_none_chain (rest : List Layer) :
    ∀ o : Nat, chainedFrom o rest → Alt rest →
    ∃ o', o ≤ o' ∧ chainedFrom o' (mergeAux none rest) ∧
      o' + sumLen (mergeAux none rest) ≤ o + sumLen rest := by
  induction rest with
  | nil =>
    intro o _ _
    exact ⟨o, Nat.le_refl o, by rw [mergeAux_nil]; trivial,
      by rw [mergeAux_nil]; simp [sumLen]⟩
  | cons layer rest2 ih =>
    intro o hch halt
    by_cases hws : layer.role = .code ∧ isBlank layer.content = true
    · rw [mergeAux_eq_wsdrop_none layer rest2 hws]
      have hrec := ih (o + layer.originalLength) hch.2 (alt_tail halt)
      obtain ⟨o2, h1, h2, h3⟩ := hrec
      refine ⟨o2, by omega, h2, ?_⟩
      simp only [sumLen_cons]
      omega
    · rw [mergeAux_eq_start layer rest2 hws]
      have := mergeAux_some_chain rest2 layer o ⟨hch.1, hch.2⟩ (alt_tail halt)
        (by
          cases rest2 with
          | nil => trivial
          | cons h2 t2 =>
            show Seam (some layer) (h2 :: t2)
            left
            exact halt.1)
      refine ⟨o, Nat.le_refl o, this.1, ?_⟩
      simp only [sumLen_cons]
      have := this.2
      omega


/-- The first element of the merge output with a pending layer is that
layer, possibly extended by absorptions/concatenations preserving role and
offset. -/
theorem mergeAux_head_role (rest : List Layer) :
    ∀ l : Layer, ∃ l' t, mergeAux (some l) rest = l' :: t ∧ l'.role = l.role := by
  induction rest with
  | nil =>
    intro l
    exact ⟨l, [], mergeAux_nil (some l), rfl⟩
  | cons layer rest2 ih =>
    intro l
    by_cases hws : layer.role = .code ∧ isBlank layer.content = true
    · cases rest2 with
      | nil =>
        exact ⟨l, [], mergeAux_eq_wsdrop_last l layer hws, rfl⟩
      | cons next t =>
        by_cases hpp : l.role = .prose ∧ next.role = .prose
        · obtain ⟨l', t', h1, h2⟩ := ih (absorbBlank l layer)
          exact ⟨l', t', by rw [mergeAux_eq_absorb l layer next t hws hpp]; exact h1, h2⟩
        · obtain ⟨l', t', h1, h2⟩ := ih l
          exact ⟨l', t', by rw [mergeAux_eq_wsskip l layer next t hws hpp]; exact h1, h2⟩
    · by_cases hpp : layer.role = .prose ∧ l.role = .prose
      · obtain ⟨l', t', h1, h2⟩ := ih (concatProse l layer)
        exact ⟨l', t', by rw [mergeAux_eq_concat l layer rest2 hws hpp]; exact h1, h2⟩
      · exact ⟨l, mergeAux (some layer) rest2,
          mergeAux_eq_push l layer rest2 hws hpp, rfl⟩

/-- The merge pass never leaves two adjacent prose layers, whatever its
input. -/
theorem mergeAux_noAdjProse (rest : List Layer) :
    ∀ last? : Option Layer, NoAdjProse (mergeAux last? rest) := by
  induction rest with
  | nil =>
    intro last?
    rw [mergeAux_nil]
    cases last? with
    | none => trivial
    | some l => trivial
  | cons layer rest2 ih =>
    intro last?
    by_cases hws : layer.role = .code ∧ isBlank layer.content = true
    · cases last? with
      | none =>
        rw [mergeAux_eq_wsdrop_none layer rest2 hws]
        exact ih none
      | some prev =>
        cases rest2 with
        | nil =>
          rw [mergeAux_eq_wsdrop_last prev layer hws]
          trivial
        | cons next t =>
          by_cases hpp : prev.role = .prose ∧ next.role = .prose
          · rw [mergeAux_eq_absorb prev layer next t hws hpp]
            exact ih (some (absorbBlank prev layer))
          · rw [mergeAux_eq_wsskip prev layer next t hws hpp]
            exact ih (some prev)
    · cases last? with
      | none =>
        rw [mergeAux_eq_start layer rest2 hws]
        exact ih (some layer)
      | some prev =>
        by_cases hpp : layer.role = .prose ∧ prev.role = .prose
        · rw [mergeAux_eq_concat prev layer rest2 hws hpp]
          exact ih (some (concatProse prev layer))
        · rw [mergeAux_eq_push prev layer rest2 hws hpp]
          obtain ⟨l', t', h1, h2⟩ := mergeAux_head_role rest2 layer
          rw [h1]
          refine ⟨?_, by rw [← h1]; exact ih (some layer)⟩
          intro hcon
          exact hpp ⟨by rw [← h2]; exact hcon.2, hcon.1⟩

/-- Claim C10: the layer sequence returned by `extractLayers` never contains two
consecutive prose layers. -/
theorem extractLayers_noAdjProse (source : List Char) :
    NoAdjProse (extractLayers source) :=
  mergeAux_noAdjProse (scanGo none [] 0 0 0 (splitLines source)) none

/-- Claim C1 (amended): the layers returned by `extractLayers` chain — each
subsequent layer's offset is the preceding layer's offset plus its
`originalLength` — and the first offset plus the total `originalLength`
never exceeds the source length.  (Equality with the source length, and a
zero first offset, can fail: whitespace-only code layers at either end are
dropped by the merge pass.) -/
theorem extractLayers_chain (source : List Char) :
    chainedFrom (firstOff (extractLayers source)) (extractLayers source) ∧
    firstOff (extractLayers source) + sumLen (extractLayers source) ≤ source.length := by
  have hscan := scanGo_chain (splitLines source) none [] 0 0 0 rfl
    (fun _ _ => rfl) (fun _ => rfl)
  have halt := (scanGo_alt (splitLines source) none [] 0 0 0).1
  obtain ⟨o', h0, hchain, hsum⟩ :=
    mergeAux_none_chain (scanGo none [] 0 0 0 (splitLines source)) 0 (by
      simpa using hscan.1) halt
  have hbound : sumLen (scanGo none [] 0 0 0 (splitLines source)) ≤ source.length := by
    have := hscan.2
    rw [linesLen_splitLines] at this
    simpa using this
  have hE : extractLayers source = mergeAux none (scanGo none [] 0 0 0 (splitLines source)) :=
    rfl
  rw [hE]
  cases hout : mergeAux none (scanGo none [] 0 0 0 (splitLines source)) with
  | nil => exact ⟨trivial, by simp [firstOff, sumLen]⟩
  | cons l t =>
    rw [hout] at hchain hsum
    have hfo : firstOff (l :: t) = o' := hchain.1
    rw [hfo]
    exact ⟨hchain, by omega⟩

/-- The original C1 fails: for the one-character source `" "` the single
whitespace-only code layer is dropped by the merge pass, so the sum of
`originalLength` over the returned layers is 0, not the source length 1. -/
theorem extractLayers_chain_counterexample :
    sumLen (extractLayers (' ' :: [])) ≠ (' ' :: []).length := by decide

/-! ## Scanning a run of same-role lines (C4, C5) -/

theorem lineBody_code {l : List Char} (h : roleOf l = .code) : lineBody l = l := by
  unfold lineBody
  rw [h]

/-- Scanning a run of lines that all have the accumulating role extends the
accumulator with their joined bodies and flushes at the end. -/
theorem scanGo_run (ls : List (List Char)) :
    ∀ (r : LayerRole) (content : List Char) (curOff curLen offset : Nat),
    (∀ l ∈ ls, roleOf l = r) →
    scanGo (some r) content curOff curLen offset ls =
      flushOut (some r) (content ++ joinWith '\n' (ls.map lineBody)) curOff
        (curLen + linesLen ls) := by
  induction ls with
  | nil =>
    intro r content curOff curLen offset _
    simp [scanGo, linesLen, joinWith]
  | cons line rest ih =>
    intro r content curOff curLen offset hall
    have hrole : roleOf line = r := hall line (by simp)
    rw [scanGo, if_pos (by rw [hrole])]
    cases rest with
    | nil =>
      simp only [List.map_cons, List.map_nil]
      show flushOut (some r) (content ++ (lineBody line ++ [])) curOff
          (curLen + (line.length + 0)) = _
      simp [linesLen, joinWith]
    | cons l2 rest2 =>
      have hne : (l2 :: rest2) ≠ ([] : List (List Char)) := by simp
      rw [if_neg hne, if_neg hne]
      rw [ih r (content ++ (lineBody line ++ ['\n'])) curOff (curLen + (line.length + 1))
        (offset + (line.length + 1)) (fun l hl => hall l (by simp [hl]))]
      have h1 : content ++ (lineBody line ++ ['\n']) ++
          joinWith '\n' ((l2 :: rest2).map lineBody) =
          content ++ joinWith '\n' ((line :: l2 :: rest2).map lineBody) := by
        simp only [List.map_cons, joinWith_cons_cons]
        simp
      have h2 : curLen + (line.length + 1) + linesLen (l2 :: rest2) =
          curLen + linesLen (line :: l2 :: rest2) := by
        simp only [linesLen]
        simp
        omega
      rw [h1, h2]

/-- Scanning from the initial state over a nonempty run of same-role lines
yields (at most) a single layer spanning everything. -/
theorem scanGo_none_run (ls : List (List Char)) (r : LayerRole) (hne : ls ≠ [])
    (hall : ∀ l ∈ ls, roleOf l = r) :
    scanGo none [] 0 0 0 ls =
      flushOut (some r) (joinWith '\n' (ls.map lineBody)) 0 (linesLen ls) := by
  cases ls with
  | nil => exact absurd rfl hne
  | cons line rest =>
    have hrole : roleOf line = r := hall line (by simp)
    rw [scanGo, if_neg (by simp)]
    show [] ++ scanGo (some (roleOf line)) _ 0 _ _ rest = _
    rw [List.nil_append, hrole]
    cases rest with
    | nil =>
      show scanGo (some r) (lineBody line ++ []) 0 (line.length + 0) (0 + (line.length + 0)) [] = _
      show flushOut (some r) (lineBody line ++ []) 0 (line.length + 0) = _
      simp [joinWith, linesLen]
    | cons l2 rest2 =>
      have hne2 : (l2 :: rest2) ≠ ([] : List (List Char)) := by simp
      rw [if_neg hne2, if_neg hne2]
      rw [scanGo_run (l2 :: rest2) r (lineBody line ++ ['\n']) 0 (line.length + 1)
        (0 + (line.length + 1)) (fun l hl => hall l (by simp [hl]))]
      have h1 : lineBody line ++ ['\n'] ++ joinWith '\n' ((l2 :: rest2).map lineBody) =
          joinWith '\n' ((line :: l2 :: rest2).map lineBody) := by
        simp only [List.map_cons, joinWith_cons_cons]
        simp
      have h2 : line.length + 1 + linesLen (l2 :: rest2) = linesLen (line :: l2 :: rest2) := by
        simp [linesLen]
      rw [h1, h2]

theorem isBlank_eq_false_of_mem {s : List Char} {c : Char} (hc : c ∈ s)
    (hw : isJsWs c = false) : isBlank s = false := by
  unfold isBlank
  cases h2 : s.all isJsWs
  · rfl
  · exact absurd (List.all_eq_true.mp h2 c hc) (by rw [hw]; simp)

/-- Claim C4 (amended): for a source with no prose line and at least one
non-whitespace character, `extractLayers` yields exactly one code layer
spanning the whole input.  (A source whose lines are all code but whose
text is entirely whitespace yields the empty list instead: the single
whitespace-only code layer is dropped by the merge pass.) -/
theorem extractLayers_no_prose (source : List Char)
    (hnp : ∀ l ∈ splitLines source, roleOf l = LayerRole.code)
    (hnw : ∃ c ∈ source, isJsWs c = false) :
    extractLayers source = [⟨.code, source, 0, source.length⟩] := by
  have hne : splitLines source ≠ [] := splitOnChar_ne_nil '\n' source
  have hbody : (splitLines source).map lineBody = splitLines source :=
    List.map_congr_left (fun l hl => lineBody_code (hnp l hl)) |>.trans (List.map_id _)
  have hsrc : joinWith '\n' ((splitLines source).map lineBody) = source := by
    rw [hbody]
    exact joinWith_splitOnChar '\n' source
  obtain ⟨c, hc, hw⟩ := hnw
  have hsne : source ≠ [] := by
    intro h
    rw [h] at hc
    exact absurd hc (List.not_mem_nil c)
  have hscan : scanGo none [] 0 0 0 (splitLines source) =
      [⟨.code, source, 0, source.length⟩] := by
    rw [scanGo_none_run (splitLines source) .code hne hnp, hsrc, linesLen_splitLines,
      flushOut_some, if_neg hsne]
  show mergeAux none (scanGo none [] 0 0 0 (splitLines source)) = _
  rw [hscan]
  have hnb : isBlank source = false := isBlank_eq_false_of_mem hc hw
  rw [mergeAux_eq_start _ _ (by
    intro hcon
    rw [hnb] at hcon
    exact absurd hcon.2 (by simp)), mergeAux_nil]
  rfl

/-- The original C4 fails on a whitespace-only source: `"\t"` has no prose
line, yet `extractLayers` returns no layer at all. -/
theorem extractLayers_no_prose_counterexample :
    (∀ l ∈ splitLines ('\t' :: []), roleOf l = LayerRole.code) ∧
    extractLayers ('\t' :: []) = [] := by decide

/-! ## C5: merging two prose blocks separated by a blank line -/

/-- Content contributed by a run of lines that is followed by further
lines: every line gets its terminator. -/
def runCont (pl : List (List Char)) : List Char :=
  pl.foldr (fun l acc => lineBody l ++ '\n' :: acc) []

/-- Source length of a run of lines that is followed by further lines. -/
def lenCont (pl : List (List Char)) : Nat :=
  (pl.map (fun l => l.length + 1)).sum

theorem runCont_cons (l : List Char) (pl : List (List Char)) :
    runCont (l :: pl) = lineBody l ++ '\n' :: runCont pl := rfl

theorem runCont_eq (pl : List (List Char)) (hne : pl ≠ []) :
    runCont pl = joinWith '\n' (pl.map lineBody) ++ ['\n'] := by
  induction pl with
  | nil => exact absurd rfl hne
  | cons l pl2 ih =>
    cases pl2 with
    | nil => simp [runCont, joinWith]
    | cons l2 pl3 =>
      rw [runCont_cons, ih (by simp)]
      simp only [List.map_cons, joinWith_cons_cons]
      simp

theorem runCont_ne_nil (pl : List (List Char)) (hne : pl ≠ []) : runCont pl ≠ [] := by
  rw [runCont_eq pl hne]
  simp

theorem lenCont_cons (l : List Char) (pl : List (List Char)) :
    lenCont (l :: pl) = l.length + 1 + lenCont pl := by
  simp [lenCont]

theorem linesLen_append_cont (pl rest : List (List Char)) (hrne : rest ≠ []) :
    linesLen (pl ++ rest) = lenCont pl + linesLen rest := by
  induction pl with
  | nil => simp [lenCont]
  | cons l pl2 ih =>
    have hne : pl2 ++ rest ≠ [] := by
      intro h
      rcases List.append_eq_nil.mp h with ⟨_, h2⟩
      exact hrne h2
    rw [List.cons_append, linesLen, if_neg hne, ih, lenCont_cons]
    omega

/-- Scanning a same-role run followed by further lines accumulates all the
run's bodies (each with its newline) without flushing. -/
theorem scanGo_run_cont (pl : List (List Char)) :
    ∀ (r : LayerRole) (content : List Char) (curOff curLen offset : Nat)
      (rest : List (List Char)), rest ≠ [] →
    (∀ l ∈ pl, roleOf l = r) →
    scanGo (some r) content curOff curLen offset (pl ++ rest) =
      scanGo (some r) (content ++ runCont pl) curOff (curLen + lenCont pl)
        (offset + lenCont pl) rest := by
  induction pl with
  | nil =>
    intro r content curOff curLen offset rest hrne _
    simp [runCont, lenCont]
  | cons line pl2 ih =>
    intro r content curOff curLen offset rest hrne hall
    have hne : pl2 ++ rest ≠ [] := by
      intro h
      rcases List.append_eq_nil.mp h with ⟨_, h2⟩
      exact hrne h2
    rw [List.cons_append, scanGo, if_pos (by rw [hall line (by simp)]), if_neg hne, if_neg hne]
    rw [ih r (content ++ (lineBody line ++ ['\n'])) curOff (curLen + (line.length + 1))
      (offset + (line.length + 1)) rest hrne (fun l hl => hall l (by simp [hl]))]
    have h1 : content ++ (lineBody line ++ ['\n']) ++ runCont pl2 =
        content ++ runCont (line :: pl2) := by
      rw [runCont_cons]
      simp
    have h2 : curLen + (line.length + 1) + lenCont pl2 = curLen + lenCont (line :: pl2) := by
      rw [lenCont_cons]
      omega
    have h3 : offset + (line.length + 1) + lenCont pl2 = offset + lenCont (line :: pl2) := by
      rw [lenCont_cons]
      omega
    rw [h1, h2, h3]

/-- Scanning from the initial state: a same-role run followed by further
lines establishes the role and accumulates the run. -/
theorem scanGo_none_run_cont (p1 rest : List (List Char)) (r : LayerRole)
    (h1 : p1 ≠ []) (hrne : rest ≠ []) (hall : ∀ l ∈ p1, roleOf l = r) :
    scanGo none [] 0 0 0 (p1 ++ rest) =
      scanGo (some r) (runCont p1) 0 (lenCont p1) (lenCont p1) rest := by
  cases p1 with
  | nil => exact absurd rfl h1
  | cons l1 p1' =>
    have hne : p1' ++ rest ≠ [] := by
      intro h
      rcases List.append_eq_nil.mp h with ⟨_, h2⟩
      exact hrne h2
    rw [List.cons_append, scanGo, if_neg (by simp), if_neg hne, if_neg hne]
    rw [flushOut_none, List.nil_append, hall l1 (by simp)]
    rw [scanGo_run_cont p1' r (lineBody l1 ++ ['\n']) 0 (l1.length + 1)
      (0 + (l1.length + 1)) rest hrne (fun l hl => hall l (by simp [hl]))]
    have h1' : lineBody l1 ++ ['\n'] ++ runCont p1' = runCont (l1 :: p1') := by
      rw [runCont_cons]
      simp
    have h2' : l1.length + 1 + lenCont p1' = lenCont (l1 :: p1') := by
      rw [lenCont_cons]
    have h3' : 0 + (l1.length + 1) + lenCont p1' = lenCont (l1 :: p1') := by
      rw [lenCont_cons]
      omega
    rw [h1', h2', h3']

/-- Scanning a run whose role differs from the accumulating role flushes
the accumulator and yields the run as (at most) one further layer. -/
theorem scanGo_fresh_run (ls : List (List Char)) (r0 r : LayerRole)
    (content : List Char) (curOff curLen offset : Nat)
    (hne : ls ≠ []) (hall : ∀ l ∈ ls, roleOf l = r) (hneq : r0 ≠ r) :
    scanGo (some r0) content curOff curLen offset ls =
      flushOut (some r0) content curOff curLen ++
        flushOut (some r) (joinWith '\n' (ls.map lineBody)) offset (linesLen ls) := by
  cases ls with
  | nil => exact absurd rfl hne
  | cons line rest =>
    have hrole : roleOf line = r := hall line (by simp)
    rw [scanGo, if_neg (by rw [hrole]; intro hcon; exact hneq (Option.some_inj.mp hcon))]
    rw [hrole]
    cases rest with
    | nil =>
      show flushOut (some r0) content curOff curLen ++
          flushOut (some r) (lineBody line ++ []) offset (line.length + 0) = _
      simp [joinWith, linesLen]
    | cons l2 rest2 =>
      have hne2 : (l2 :: rest2) ≠ ([] : List (List Char)) := by simp
      rw [if_neg hne2, if_neg hne2]
      rw [scanGo_run (l2 :: rest2) r (lineBody line ++ ['\n']) offset (line.length + 1)
        (offset + (line.length + 1)) (fun l hl => hall l (by simp [hl]))]
      have h1 : lineBody line ++ ['\n'] ++ joinWith '\n' ((l2 :: rest2).map lineBody) =
          joinWith '\n' ((line :: l2 :: rest2).map lineBody) := by
        simp only [List.map_cons, joinWith_cons_cons]
        simp
      have h2 : line.length + 1 + linesLen (l2 :: rest2) = linesLen (line :: l2 :: rest2) := by
        simp [linesLen]
      rw [h1, h2]

/-- Claim C5 (amended): a source made of two prose blocks separated by exactly
one blank line extracts to a single merged prose layer — the blank code
layer is absorbed, adding its `originalLength`, and the merged content has
exactly one inserted blank line between the two prose bodies — provided
the second block's stripped body is nonempty.  (If the second block strips
to nothing, its layer is dropped and no absorption happens.) -/
theorem extractLayers_merged_prose (p1 p2 : List (List Char))
    (h1ne : p1 ≠ []) (h2ne : p2 ≠ [])
    (hp1 : ∀ l ∈ p1, roleOf l = LayerRole.prose)
    (hp2 : ∀ l ∈ p2, roleOf l = LayerRole.prose)
    (hn1 : ∀ l ∈ p1, '\n' ∉ l) (hn2 : ∀ l ∈ p2, '\n' ∉ l)
    (hbody2 : joinWith '\n' (p2.map lineBody) ≠ []) :
    extractLayers (joinLines (p1 ++ [] :: p2)) =
      [⟨.prose,
        joinWith '\n' (p1.map lineBody) ++ '\n' :: '\n' :: joinWith '\n' (p2.map lineBody),
        0, (joinLines (p1 ++ [] :: p2)).length⟩] := by
  have hsplit : splitLines (joinLines (p1 ++ [] :: p2)) = p1 ++ [] :: p2 := by
    apply splitOnChar_joinWith
    · intro h
      rcases List.append_eq_nil.mp h with ⟨_, h2⟩
      exact absurd h2 (by simp)
    · intro l hl
      rcases List.mem_append.mp hl with h | h
      · exact hn1 l h
      · rcases List.mem_cons.mp h with rfl | h2
        · simp
        · exact hn2 l h2
  show mergeAux none (scanGo none [] 0 0 0 (splitLines (joinLines (p1 ++ [] :: p2)))) = _
  rw [hsplit]
  rw [scanGo_none_run_cont p1 ([] :: p2) .prose h1ne (by simp) hp1]
  -- the blank line: role code, body empty
  have hrole0 : roleOf ([] : List Char) = LayerRole.code := rfl
  rw [scanGo, if_neg (by rw [hrole0]; simp), if_neg h2ne, if_neg h2ne]
  have hbody0 : lineBody ([] : List Char) = [] := rfl
  rw [hbody0, hrole0]
  rw [scanGo_fresh_run p2 .code .prose ([] ++ ['\n']) (lenCont p1)
    (List.length ([] : List Char) + 1) (lenCont p1 + (List.length ([] : List Char) + 1))
    h2ne hp2 (by intro h; exact LayerRole.noConfusion h)]
  rw [flushOut_some, if_neg (runCont_ne_nil p1 h1ne)]
  rw [flushOut_some, if_neg (by simp)]
  rw [flushOut_some, if_neg hbody2]
  -- now the three scan layers are explicit; run the merge pass
  rw [List.cons_append, List.nil_append, List.singleton_append]
  rw [mergeAux_eq_start _ _ (by intro hcon; exact LayerRole.noConfusion hcon.1)]
  rw [mergeAux_eq_absorb ⟨.prose, runCont p1, 0, lenCont p1⟩
    ⟨.code, [] ++ ['\n'], lenCont p1, List.length ([] : List Char) + 1⟩
    ⟨.prose, joinWith '\n' (p2.map lineBody), lenCont p1 + (List.length ([] : List Char) + 1),
      linesLen p2⟩ [] ⟨rfl, by rfl⟩ ⟨rfl, rfl⟩]
  rw [mergeAux_eq_concat _ _ _ (by intro hcon; exact LayerRole.noConfusion hcon.1) ⟨rfl, rfl⟩]
  rw [mergeAux_nil]
  have hcnt : runCont p1 ++
      List.replicate (max 1 (List.count '\n' (([] : List Char) ++ ['\n']))) '\n' ++
      joinWith '\n' (p2.map lineBody) =
      joinWith '\n' (p1.map lineBody) ++ '\n' :: '\n' :: joinWith '\n' (p2.map lineBody) := by
    rw [runCont_eq p1 h1ne]
    have h1 : List.count '\n' (([] : List Char) ++ ['\n']) = 1 := rfl
    rw [h1]
    simp
  have hlen : lenCont p1 + (List.length ([] : List Char) + 1) + linesLen p2 =
      (joinLines (p1 ++ [] :: p2)).length := by
    show _ = (joinWith '\n' (p1 ++ [] :: p2)).length
    rw [← linesLen_eq_joinWith_length, linesLen_append_cont p1 ([] :: p2) (by simp),
      linesLen, if_neg h2ne]
    omega
  simp only [concatProse, absorbBlank, Option.toList_some]
  rw [hcnt, hlen]

/-- The original C5 fails when the second prose block strips to an empty
body: for `"///a\n\n///"` the second prose layer is dropped, no absorption
happens, and the single returned layer covers only 5 of the 9 source
characters, with no inserted blank line. -/
theorem extractLayers_merged_prose_counterexample :
    extractLayers ('/' :: '/' :: '/' :: 'a' :: '\n' :: '\n' :: '/' :: '/' :: '/' :: []) =
      [⟨.prose, 'a' :: '\n' :: [], 0, 5⟩] ∧
    ('/' :: '/' :: '/' :: 'a' :: '\n' :: '\n' :: '/' :: '/' :: '/' :: []).length = 9 := by
  decide

theorem extractLayers_merged_prose_witness :
    extractLayers ('/' :: '/' :: '/' :: 'a' :: '\n' :: '\n' :: '/' :: '/' :: '/' :: 'b' :: []) =
      [⟨.prose, 'a' :: '\n' :: '\n' :: 'b' :: [], 0, 10⟩] :=
  extractLayers_merged_prose
    [('/' :: '/' :: '/' :: 'a' :: [])] [('/' :: '/' :: '/' :: 'b' :: [])]
    (by decide) (by decide) (by decide) (by decide) (by decide) (by decide) (by decide)

theorem extractLayers_no_prose_witness :
    extractLayers ('x' :: []) = [⟨.code, 'x' :: [], 0, 1⟩] :=
  extractLayers_no_prose ('x' :: []) (by decide) (by decide)

theorem anchor_agreement_witness :
    indexAnchorOf ('a' :: '.' :: 't' :: 's' :: []) 3 =
      defAnchorOf (defIdOf ('a' :: '.' :: 't' :: 's' :: []) 3) :=
  (anchor_agreement ('a' :: '.' :: 't' :: 's' :: []) 3 0 5 ('f' :: []) [('i' :: 'd' :: [])]
    ⟨[], 0⟩ (by decide)).2.1

theorem external_ref_renders_span_witness :
    List.isPrefixOf ('<' :: 'a' :: [])
      (renderToken
        { start := 0, length := 3, text := ('f' :: 'o' :: 'o' :: []),
          classes := [('i' :: 'd' :: [])],
          definitionId := ('l' :: 'i' :: 'b' :: ':' :: '1' :: []),
          definitionFile := ('l' :: 'i' :: 'b' :: []),
          isDefinition := false, quickInfo := [] }
        ('a' :: []) { knownFiles := some [('a' :: [])] } ⟨[], 0⟩).1 = false :=
  (external_ref_renders_span _ _ _ _ [('a' :: [])] rfl (by decide) (by decide) rfl
    (by decide) rfl).2

/-! ## C7: the definition registry is written once per key and stable -/

/-- Decimal decoding, inverse to `natDigits`. -/
def natFromDigits (l : List Char) : Nat :=
  l.foldl (fun acc c => acc * 10 + (c.toNat - 48)) 0

theorem toNat_ofNat_digit (d : Nat) (hd : d < 10) : (Char.ofNat (48 + d)).toNat = 48 + d := by
  interval_cases d <;> decide

theorem natFromDigits_natDigits (n : Nat) : natFromDigits (natDigits n) = n := by
  induction n using Nat.strong_induction_on with
  | _ n ih =>
    rw [natDigits]
    split
    · rename_i h
      show (0 * 10 + ((Char.ofNat (48 + n)).toNat - 48)) = n
      rw [toNat_ofNat_digit n h]
      omega
    · rename_i h
      show List.foldl _ 0 (natDigits (n / 10) ++ [Char.ofNat (48 + n % 10)]) = n
      rw [List.foldl_append]
      have h1 : List.foldl (fun acc c => acc * 10 + (c.toNat - 48)) 0 (natDigits (n / 10)) =
          n / 10 :=
        ih (n / 10)
          (Nat.div_lt_self (Nat.lt_of_lt_of_le (by decide) (Nat.le_of_not_lt h)) (by decide))
      rw [h1]
      show n / 10 * 10 + ((Char.ofNat (48 + n % 10)).toNat - 48) = n
      rw [toNat_ofNat_digit (n % 10) (Nat.mod_lt n (by decide))]
      omega

theorem natDigits_inj {a b : Nat} (h : natDigits a = natDigits b) : a = b := by
  rw [← natFromDigits_natDigits a, h, natFromDigits_natDigits]

theorem colon_not_mem_natDigits (n : Nat) : ':' ∉ natDigits n := by
  intro h
  have := natDigits_alphaNum n ':' h
  exact absurd this (by decide)

/-- Cancellation around the first separator occurrence. -/
theorem append_sep_cancel (sep : Char) :
    ∀ (x1 x2 u1 u2 : List Char), sep ∉ x1 → sep ∉ x2 →
    x1 ++ sep :: u1 = x2 ++ sep :: u2 → x1 = x2 ∧ u1 = u2 := by
  intro x1
  induction x1 with
  | nil =>
    intro x2 u1 u2 _ hx2 h
    cases x2 with
    | nil => simpa using h
    | cons c cs =>
      simp only [List.nil_append, List.cons_append, List.cons.injEq] at h
      exact absurd (by rw [h.1]; simp : sep ∈ c :: cs) hx2
  | cons c cs ih =>
    intro x2 u1 u2 hx1 hx2 h
    cases x2 with
    | nil =>
      simp only [List.nil_append, List.cons_append, List.cons.injEq] at h
      exact absurd (by rw [← h.1]; simp : sep ∈ c :: cs) hx1
    | cons c2 cs2 =>
      simp only [List.cons_append, List.cons.injEq] at h
      obtain ⟨h1, h2⟩ := h
      have := ih cs2 u1 u2 (fun hm => hx1 (by simp [hm])) (fun hm => hx2 (by simp [hm])) h2
      exact ⟨by rw [h1, this.1], this.2⟩

/-- Cancellation around the last separator occurrence (the suffixes are
separator-free). -/
theorem append_sep_cancel_right (sep : Char) (f1 f2 d1 d2 : List Char)
    (hd1 : sep ∉ d1) (hd2 : sep ∉ d2)
    (h : f1 ++ sep :: d1 = f2 ++ sep :: d2) : f1 = f2 ∧ d1 = d2 := by
  have hrev : d1.reverse ++ sep :: f1.reverse = d2.reverse ++ sep :: f2.reverse := by
    have := congrArg List.reverse h
    simpa [List.reverse_append] using this
  have := append_sep_cancel sep d1.reverse d2.reverse f1.reverse f2.reverse
    (by simpa using hd1) (by simpa using hd2) hrev
  constructor
  · have := congrArg List.reverse this.2
    simpa using this
  · have := congrArg List.reverse this.1
    simpa using this

theorem defIdOf_inj {f1 f2 : List Char} {s1 s2 : Nat}
    (h : defIdOf f1 s1 = defIdOf f2 s2) : f1 = f2 ∧ s1 = s2 := by
  have := append_sep_cancel_right ':' f1 f2 (natDigits s1) (natDigits s2)
    (colon_not_mem_natDigits s1) (colon_not_mem_natDigits s2) h
  exact ⟨this.1, natDigits_inj this.2⟩

theorem regGet_nil (k : List Char) : regGet [] k = none := rfl

theorem regGet_cons (k0 : List Char) (v0 : SymLoc) (rest : Registry) (k : List Char) :
    regGet ((k0, v0) :: rest) k = if k0 = k then some v0 else regGet rest k := by
  unfold regGet
  rw [List.find?]
  split
  · rename_i hfound
    simp at hfound
    rw [if_pos hfound]
    simp
  · rename_i hnot
    simp at hnot
    rw [if_neg hnot]

theorem regGet_regSet_self (reg : Registry) (k : List Char) (v : SymLoc) :
    regGet (regSet reg k v) k = some v := by
  induction reg with
  | nil =>
    rw [regSet, regGet_cons, if_pos rfl]
  | cons p rest ih =>
    obtain ⟨k0, v0⟩ := p
    rw [regSet]
    split
    · rename_i hp
      rw [regGet_cons, if_pos hp]
    · rename_i hp
      rw [regGet_cons, if_neg hp, ih]

theorem regGet_regSet_ne (reg : Registry) (k k' : List Char) (v : SymLoc)
    (hne : k' ≠ k) : regGet (regSet reg k v) k' = regGet reg k' := by
  induction reg with
  | nil =>
    rw [regSet, regGet_cons, if_neg (fun h => hne h.symm)]
  | cons p rest ih =>
    obtain ⟨k0, v0⟩ := p
    rw [regSet]
    split
    · rename_i hp
      rw [regGet_cons, regGet_cons]
      rcases eq_or_ne k0 k' with h | h
      · exact absurd (h.symm.trans hp) hne
      · rw [if_neg h, if_neg h]
    · rw [regGet_cons, regGet_cons, ih]

/-- Every entry of a registry reachable from empty is canonical: its key
decodes to a `(file, offset)` pair and its value is the resolved location
of exactly that pair. -/
def RegOK (srcs : List Char → List Char) (reg : Registry) : Prop :=
  ∀ k v, regGet reg k = some v →
    ∃ f s, k = defIdOf f s ∧ v = symLocOf (srcs f) f s

theorem RegOK_nil (srcs : List Char → List Char) : RegOK srcs [] := by
  intro k v h
  rw [regGet_nil] at h
  exact absurd h (by simp)

theorem registerStep_preserve (srcs : List Char → List Char) (filename : List Char)
    (reg : Registry) (span : SpanIn) (hok : RegOK srcs reg) :
    RegOK srcs (registerStep srcs filename reg span) ∧
    (∀ k v, regGet reg k = some v →
      regGet (registerStep srcs filename reg span) k = some v) := by
  unfold registerStep
  split
  · split
    · rename_i d hda
      split
      · rename_i hd
        have hval : symLocOf (srcs filename) filename span.start =
            symLocOf (srcs d.fileName) d.fileName d.start := by
          rw [hd.1, hd.2]
        constructor
        · intro k v h
          rcases eq_or_ne k (defIdOf d.fileName d.start) with hk | hk
          · subst hk
            rw [regGet_regSet_self] at h
            exact ⟨d.fileName, d.start, rfl, (Option.some_inj.mp h).symm.trans hval⟩
          · rw [regGet_regSet_ne _ _ _ _ hk] at h
            exact hok k v h
        · intro k v h
          rcases eq_or_ne k (defIdOf d.fileName d.start) with hk | hk
          · obtain ⟨f, s, hkd, hv⟩ := hok k v h
            have hinj := defIdOf_inj (hkd.symm.trans hk)
            subst hk
            rw [regGet_regSet_self]
            exact congrArg some (by rw [hv, hinj.1, hinj.2, ← hval])
          · rw [regGet_regSet_ne _ _ _ _ hk]
            exact h
      · exact ⟨hok, fun _ _ h => h⟩
    · exact ⟨hok, fun _ _ h => h⟩
  · exact ⟨hok, fun _ _ h => h⟩

theorem processFile_preserve (srcs : List Char → List Char) (filename : List Char)
    (spans : List SpanIn) :
    ∀ reg : Registry, RegOK srcs reg →
    RegOK srcs (processFile srcs reg filename spans) ∧
    (∀ k v, regGet reg k = some v →
      regGet (processFile srcs reg filename spans) k = some v) := by
  induction spans with
  | nil => exact fun reg hok => ⟨hok, fun _ _ h => h⟩
  | cons span rest ih =>
    intro reg hok
    have hstep := registerStep_preserve srcs filename reg span hok
    have hrest := ih (registerStep srcs filename reg span) hstep.1
    exact ⟨hrest.1, fun k v h => hrest.2 k v (hstep.2 k v h)⟩

theorem processBuild_preserve (srcs : List Char → List Char)
    (files : List (List Char × List SpanIn)) :
    ∀ reg : Registry, RegOK srcs reg →
    RegOK srcs (processBuild srcs reg files) ∧
    (∀ k v, regGet reg k = some v →
      regGet (processBuild srcs reg files) k = some v) := by
  induction files with
  | nil => exact fun reg hok => ⟨hok, fun _ _ h => h⟩
  | cons fp rest ih =>
    intro reg hok
    have hstep := processFile_preserve srcs fp.1 fp.2 reg hok
    have hrest := ih (processFile srcs reg fp.1 fp.2) hstep.1
    exact ⟨hrest.1, fun k v h => hrest.2 k v (hstep.2 k v h)⟩

theorem processBuild_append (srcs : List Char → List Char) (reg : Registry)
    (files1 files2 : List (List Char × List SpanIn)) :
    processBuild srcs reg (files1 ++ files2) =
      processBuild srcs (processBuild srcs reg files1) files2 :=
  List.foldl_append _ _ _ _

theorem stepWrites_cases (f : List Char) (span : SpanIn) :
    stepWrites f span = [] ∨
    (stepWrites f span = [defIdOf f span.start] ∧
      span.defAt = some ⟨f, span.start⟩ ∧
      isLinkable span.classificationType = true) := by
  unfold stepWrites
  split
  · rename_i hl
    split
    · rename_i d hda
      obtain ⟨df, ds⟩ := d
      split
      · rename_i hd
        right
        refine ⟨?_, ?_, hl⟩
        · rw [show df = f from hd.1, show ds = span.start from hd.2]
        · rw [hda, show df = f from hd.1, show ds = span.start from hd.2]
      · exact Or.inl rfl
    · exact Or.inl rfl
  · exact Or.inl rfl

theorem fileWrites_mem {f : List Char} {spans : List SpanIn} {k : List Char}
    (h : k ∈ spans.flatMap (stepWrites f)) : ∃ sp ∈ spans, k = defIdOf f sp.start := by
  rcases List.mem_flatMap.mp h with ⟨sp, hsp, hk⟩
  rcases stepWrites_cases f sp with hc | hc
  · rw [hc] at hk
    exact absurd hk (List.not_mem_nil k)
  · rw [hc.1] at hk
    exact ⟨sp, hsp, List.mem_singleton.mp hk⟩

theorem fileWrites_nodup (f : List Char) (spans : List SpanIn)
    (h : (spans.map SpanIn.start).Nodup) : (spans.flatMap (stepWrites f)).Nodup := by
  induction spans with
  | nil => simp
  | cons sp rest ih =>
    rw [List.flatMap_cons]
    have hn : (rest.map SpanIn.start).Nodup := (List.nodup_cons.mp (by simpa using h)).2
    have hs : sp.start ∉ rest.map SpanIn.start := (List.nodup_cons.mp (by simpa using h)).1
    apply List.Nodup.append
    · rcases stepWrites_cases f sp with hc | hc
      · rw [hc]
        exact List.nodup_nil
      · rw [hc.1]
        simp
    · exact ih hn
    · intro k hk1 hk2
      rcases stepWrites_cases f sp with hc | hc
      · rw [hc] at hk1
        exact absurd hk1 (List.not_mem_nil k)
      · rw [hc.1] at hk1
        rcases fileWrites_mem hk2 with ⟨sp2, hsp2, hk2e⟩
        have hke : defIdOf f sp.start = defIdOf f sp2.start :=
          (List.mem_singleton.mp hk1).symm.trans hk2e
        have := (defIdOf_inj hke).2
        exact hs (by rw [this]; exact List.mem_map_of_mem SpanIn.start hsp2)

theorem buildWrites_mem {files : List (List Char × List SpanIn)} {k : List Char}
    (h : k ∈ buildWrites files) :
    ∃ fp ∈ files, ∃ sp ∈ fp.2, k = defIdOf fp.1 sp.start := by
  rcases List.mem_flatMap.mp h with ⟨fp, hfp, hk⟩
  rcases fileWrites_mem hk with ⟨sp, hsp, he⟩
  exact ⟨fp, hfp, sp, hsp, he⟩

theorem buildWrites_nodup (files : List (List Char × List SpanIn))
    (h1 : (files.map Prod.fst).Nodup)
    (h2 : ∀ fp ∈ files, ((fp.2.map SpanIn.start)).Nodup) :
    (buildWrites files).Nodup := by
  induction files with
  | nil => simp [buildWrites]
  | cons fp rest ih =>
    show ((fp.2.flatMap (stepWrites fp.1)) ++ buildWrites rest).Nodup
    have hhead : fp.1 ∉ rest.map Prod.fst := (List.nodup_cons.mp (by simpa using h1)).1
    apply List.Nodup.append
    · exact fileWrites_nodup fp.1 fp.2 (h2 fp (by simp))
    · exact ih (List.nodup_cons.mp (by simpa using h1)).2 (fun g hg => h2 g (by simp [hg]))
    · intro k hk1 hk2
      rcases fileWrites_mem hk1 with ⟨sp, _, he1⟩
      rcases buildWrites_mem hk2 with ⟨gp, hgp, sp2, _, he2⟩
      have hinj := defIdOf_inj (he1.symm.trans he2)
      exact hhead (by rw [hinj.1]; exact List.mem_map_of_mem Prod.fst hgp)

theorem registerStep_changes (srcs : List Char → List Char) (filename : List Char)
    (reg : Registry) (span : SpanIn) (k : List Char)
    (h : regGet (registerStep srcs filename reg span) k ≠ regGet reg k) :
    isLinkable span.classificationType = true ∧
    span.defAt = some ⟨filename, span.start⟩ ∧
    k = defIdOf filename span.start := by
  unfold registerStep at h
  by_cases hl : isLinkable span.classificationType = true
  · rw [if_pos hl] at h
    cases hda : span.defAt with
    | none =>
      simp only [hda] at h
      exact absurd rfl h
    | some d =>
      obtain ⟨df, ds⟩ := d
      simp only [hda] at h
      by_cases hd : df = filename ∧ ds = span.start
      · rw [if_pos (by exact ⟨hd.1, hd.2⟩)] at h
        refine ⟨hl, ?_, ?_⟩
        · rw [hd.1, hd.2]
        · by_cases hk : k = defIdOf df ds
          · rw [hk, hd.1, hd.2]
          · rw [regGet_regSet_ne _ _ _ _ hk] at h
            exact absurd rfl h
      · rw [if_neg (by intro hcon; exact hd ⟨hcon.1, hcon.2⟩)] at h
        exact absurd rfl h
  · rw [if_neg hl] at h
    exact absurd rfl h

/-- Claim C7: during a build the shared registry is written only when a span's
definition lookup points exactly at its own position in the current file
(under that span's linkable classification); with distinct token starts
per file and each file processed once, every key is written at most once;
and once a key is present its stored location is never changed by the
spans or files processed afterwards. -/
theorem registry_write_once (srcs : List Char → List Char)
    (files : List (List Char × List SpanIn))
    (h1 : (files.map Prod.fst).Nodup)
    (h2 : ∀ fp ∈ files, ((fp.2.map SpanIn.start)).Nodup) :
    (∀ (filename : List Char) (reg : Registry) (span : SpanIn) (k : List Char),
      regGet (registerStep srcs filename reg span) k ≠ regGet reg k →
      isLinkable span.classificationType = true ∧
      span.defAt = some ⟨filename, span.start⟩ ∧
      k = defIdOf filename span.start) ∧
    (buildWrites files).Nodup ∧
    (∀ (files2 : List (List Char × List SpanIn)) (k : List Char) (v : SymLoc),
      regGet (processBuild srcs [] files) k = some v →
      regGet (processBuild srcs [] (files ++ files2)) k = some v) := by
  refine ⟨fun filename reg span k h => registerStep_changes srcs filename reg span k h,
    buildWrites_nodup files h1 h2, ?_⟩
  intro files2 k v h
  rw [processBuild_append]
  exact (processBuild_preserve srcs files2 (processBuild srcs [] files)
    (processBuild_preserve srcs files [] (RegOK_nil srcs)).1).2 k v h

theorem illiterate_spec_witness :
    (illiterate ('/' :: '/' :: '/' :: ' ' :: 'x' :: '\n' :: 'c' :: [])).length =
      ('/' :: '/' :: '/' :: ' ' :: 'x' :: '\n' :: 'c' :: []).length :=
  (illiterate_spec ('/' :: '/' :: '/' :: ' ' :: 'x' :: '\n' :: 'c' :: [])).1

theorem registry_write_once_witness :
    (buildWrites [(('a' :: []),
      [⟨0, ('i' :: 'd' :: 'e' :: 'n' :: 't' :: 'i' :: 'f' :: 'i' :: 'e' :: 'r' :: []),
        some ⟨('a' :: []), 0⟩⟩])]).Nodup :=
  (registry_write_once (fun _ => [])
    [(('a' :: []),
      [⟨0, ('i' :: 'd' :: 'e' :: 'n' :: 't' :: 'i' :: 'f' :: 'i' :: 'e' :: 'r' :: []),
        some ⟨('a' :: []), 0⟩⟩])] (by decide) (by decide)).2.1

end TsLiterate
